import Mathlib

/-!
Verification of the snakehook-runner package-triage service.

This file gives a shallow embedding, in Lean 4, of the parts of the
`snakehook_runner` Python source that the specification's claims are
about, and proves or refutes each claim against that embedding:

* `core/policy.py`        — package-name normalization and the denylist test;
* `core/service.py`       — the admission sequence of `SubmissionService.submit`;
* `core/rate_limit.py`    — the fixed-window rate limiter;
* `core/concurrency.py`   — the worker pool (submit gating and the worker loop);
* `core/orchestrator.py`  — temporary-file lifecycle of `TriageOrchestrator.execute`,
  the audit-record line parser, and the capped highlight sets;
* `infra/process_runner.py` — the capped stdout/stderr reader;
* `infra/webhook_client.py` — error behaviour of `DiscordWebhookClient.send_summary`.

Machine-level conventions: Python strings are `String` / `List Char`,
bytes are `List Nat`, `float` timestamps are `ℚ` (the service feeds
`time.monotonic()` values through ordinary comparison and subtraction
only), raised exceptions are `Except` values, and the filesystem is a
characteristic function `String → Bool` over absolute paths.
-/

set_option autoImplicit false

namespace Snakehook

/-! ## Run jobs and run modes (`core/interfaces.py`) -/

/-- Modes of `RunMode` in `core/interfaces.py`. -/
inductive RunMode where
  | install
  | execute
  | execute_module
deriving DecidableEq

/-- The `RunJob` dataclass of `core/interfaces.py`, default values included. -/
structure RunJob where
  run_id : String
  package_name : String
  version : String
  mode : RunMode := RunMode.install
  file_path : Option String := none
  entrypoint : Option String := none
  module_name : Option String := none
deriving DecidableEq

/-! ## Python keyword-argument binding (for the `routes.py` → `service.py` call)

`api/routes.py` calls `service.submit(payload.package_name, payload.version,
client_ip=..., mode=..., file_path=..., entrypoint=..., module_name=...)`.
CPython binds a call's keyword arguments to the callee's declared parameter
names; a keyword that names no parameter (or a parameter already filled
positionally) raises `TypeError` before the body runs. `pyBindOk` models that
acceptance test for a callee without `*args`/`**kwargs`. -/

/-- Whether CPython would accept a call passing `positional` positional
arguments and the keyword arguments `kwargs` to a plain function whose
parameter names (after `self`) are `params`. -/
def pyBindOk (params : List String) (positional : Nat) (kwargs : List String) : Bool :=
  decide (positional ≤ params.length) &&
    kwargs.all (fun k => (params.drop positional).contains k)

/-- Parameter names of `SubmissionService.submit` in `core/service.py`
(line 40), excluding `self`. -/
def submissionSubmitParams : List String :=
  ["package_name", "version", "client_ip"]

/-- Keyword arguments used by the call `service.submit(...)` in
`api/routes.py` (lines 40-48); `package_name` and `version` are passed
positionally. -/
def triageRouteSubmitKwargs : List String :=
  ["client_ip", "mode", "file_path", "entrypoint", "module_name"]

/-- The `RunJob` literally constructed by `SubmissionService.submit`
(`core/service.py` line 47): only `run_id`, `package_name` and `version`
are supplied, every other field keeps its dataclass default. -/
def submitBuiltRunJob (run_id package_name version : String) : RunJob :=
  { run_id := run_id, package_name := package_name, version := version }

/-! ## Denylist policy (`core/policy.py`) -/

/-- Characters collapsed by the `[-_.]+` regex in `core/policy.py`. -/
def isSepChar (c : Char) : Bool :=
  c = '-' || c = '_' || c = '.'

/-- One step of replacing each maximal run of `-`, `_`, `.` by a single `-`:
the accumulator carries the output so far and whether the previous input
character belonged to a separator run. -/
def collapseStep (acc : List Char × Bool) (c : Char) : List Char × Bool :=
  if isSepChar c then
    if acc.2 then acc else (acc.1 ++ ['-'], true)
  else
    (acc.1 ++ [c], false)

/-- Model of `re.sub` with the separator pattern on a character list. -/
def collapseSeps (cs : List Char) : List Char :=
  (cs.foldl collapseStep ([], false)).1

/-- The right-strip half of Python `str.strip()`: remove trailing
whitespace. -/
def rstripChars (cs : List Char) : List Char :=
  (cs.reverse.dropWhile Char.isWhitespace).reverse

/-- Python `str.strip()` (whitespace from both ends) on a character list. -/
def pyStripChars (cs : List Char) : List Char :=
  ((cs.dropWhile Char.isWhitespace).reverse.dropWhile Char.isWhitespace).reverse

/-- Python `str.strip()` on a string. -/
def pyStrip (s : String) : String :=
  String.mk (pyStripChars s.data)

/-- Python `str.lower()` on a string (ASCII case folding, which covers the
package names the service handles). -/
def pyLower (s : String) : String :=
  String.mk (s.data.map Char.toLower)

/-- Python `s.startswith(pre)`.  (Defined over the character lists so that
it evaluates by kernel reduction.) -/
def pyStartsWith (s pre : String) : Bool :=
  pre.data.isPrefixOf s.data

/-- Function `normalize_package_name` from `core/policy.py`:
`_NORMALIZE_SEPARATORS.sub("-", package_name.strip().lower())`. -/
def normalize_package_name (package_name : String) : String :=
  String.mk (collapseSeps (pyLower (pyStrip package_name)).data)

/-- Function `is_denied_package` from `core/policy.py`. -/
def is_denied_package (package_name : String) (denylist : List String) : Bool :=
  let candidate := normalize_package_name package_name
  denylist.any fun denied =>
    let blocked := normalize_package_name denied
    candidate = blocked || pyStartsWith candidate (blocked ++ "-")

/-- The normalization exactly as claim C9 words it: lower-case and collapse
separator runs, with no mention of stripping surrounding whitespace.
This is the spec-side definition used to compare the claim's wording with
the code's `normalize_package_name`. -/
def claimedNormalize (package_name : String) : String :=
  String.mk (collapseSeps (pyLower package_name).data)

/-- The denial predicate exactly as claim C9 words it, built on
`claimedNormalize`. -/
def claimedDenied (package_name : String) (denylist : List String) : Bool :=
  denylist.any fun denied =>
    claimedNormalize package_name = claimedNormalize denied ||
      pyStartsWith (claimedNormalize package_name) (claimedNormalize denied ++ "-")

/-! ## Submission service (`core/service.py`)

`SubmissionService.submit` runs, in order: denylist check, rate-limit check,
`uuid4` minting, queue-gate submit.  The rate limiter's verdict and the
queue gate's verdict are inputs here (they are separate components,
modelled in their own sections below); `freshId` stands for the
`str(uuid.uuid4())` mint and `minted` records whether the mint happened. -/

/-- Outcome statuses of `SubmitStatus` in `core/service.py`. -/
inductive SubmitStatus where
  | accepted
  | rate_limited
  | overloaded
  | denied_package
deriving DecidableEq

/-- The `SubmitResult` dataclass. -/
structure SubmitResult where
  status : SubmitStatus
  run_id : Option String
deriving DecidableEq

/-- Trace of one `SubmissionService.submit` call: the returned result,
whether a run id was minted, and the job handed to the queue gate (if any). -/
structure SubmitTrace where
  result : SubmitResult
  minted : Bool
  gateJob : Option RunJob
deriving DecidableEq

/-- Method `SubmissionService.submit` (`core/service.py` lines 40-54).
`rateAllow` is the rate limiter's verdict for `client_ip`, `gateAccept` the
queue gate's verdict, `freshId` the minted uuid. -/
def submissionSubmit (denylist : List String) (rateAllow gateAccept : Bool)
    (freshId package_name version : String) : SubmitTrace :=
  if is_denied_package package_name denylist then
    { result := { status := SubmitStatus.denied_package, run_id := none },
      minted := false, gateJob := none }
  else if !rateAllow then
    { result := { status := SubmitStatus.rate_limited, run_id := none },
      minted := false, gateJob := none }
  else
    let job := submitBuiltRunJob freshId package_name version
    if !gateAccept then
      { result := { status := SubmitStatus.overloaded, run_id := none },
        minted := true, gateJob := some job }
    else
      { result := { status := SubmitStatus.accepted, run_id := some freshId },
        minted := true, gateJob := some job }

/-! ## Fixed-window rate limiter (`core/rate_limit.py`)

State for one key of the `_state` map: `_WindowState(window_start, count)`.
Timestamps are the `time.monotonic()` floats, modelled as `ℚ`. -/

/-- The `_WindowState` dataclass. -/
structure WindowState where
  window_start : ℚ
  count : Nat
deriving DecidableEq

/-- One `FixedWindowRateLimiter.allow(key, ts)` call for a single key:
returns the verdict and the key's new window state
(`core/rate_limit.py` lines 21-31). -/
def allowStep (limit : Nat) (window_sec : ℚ) (current : Option WindowState)
    (ts : ℚ) : Bool × WindowState :=
  match current with
  | none => (true, { window_start := ts, count := 1 })
  | some c =>
    if window_sec ≤ ts - c.window_start then
      (true, { window_start := ts, count := 1 })
    else if limit ≤ c.count then
      (false, c)
    else
      (true, { c with count := c.count + 1 })

/-- Run a sequence of `allow` calls for one key, recording for each call its
timestamp, its verdict, and the window start in force after the call. -/
def allowTrace (limit : Nat) (window_sec : ℚ) :
    Option WindowState → List ℚ → List (ℚ × Bool × ℚ)
  | _, [] => []
  | current, ts :: rest =>
    let (verdict, st) := allowStep limit window_sec current ts
    (ts, verdict, st.window_start) :: allowTrace limit window_sec (some st) rest

/-- Number of calls in a trace that were allowed and whose timestamp lies in
the half-open window `[a, a + window_sec)`. -/
def allowedInWindow (tr : List (ℚ × Bool × ℚ)) (a window_sec : ℚ) : Nat :=
  (tr.filter fun x => x.2.1 && decide (a ≤ x.1) && decide (x.1 < a + window_sec)).length

/-- Window starts occurring along a trace. -/
def traceStarts (tr : List (ℚ × Bool × ℚ)) : List ℚ :=
  tr.map fun x => x.2.2

/-! ## Worker pool (`core/concurrency.py`) -/

/-- Observable state of a `WorkerPool`: the `_started` flag and the queued
jobs of the bounded `asyncio.Queue` (capacity `queue_limit`). -/
structure PoolState where
  started : Bool
  queued : List RunJob
  queue_limit : Nat
deriving DecidableEq

/-- A fresh pool after `__init__`. -/
def poolInit (queue_limit : Nat) : PoolState :=
  { started := false, queued := [], queue_limit := queue_limit }

/-- Method `WorkerPool.start` sets `_started`; creating the worker tasks has no
effect on the fields modelled here. -/
def poolStart (st : PoolState) : PoolState :=
  { st with started := true }

/-- Method `WorkerPool.stop` clears `_started`, puts one sentinel per worker and
awaits drain; after it completes the pool is no longer started. -/
def poolStop (st : PoolState) : PoolState :=
  { st with started := false }

/-- Method `WorkerPool.submit` (`core/concurrency.py` lines 48-55): raises
`RuntimeError` when the pool is not started, otherwise `put_nowait` — `false`
when the queue is full, `true` (with the job queued) otherwise. -/
def poolSubmit (st : PoolState) (job : RunJob) :
    Except String (Bool × PoolState) :=
  if !st.started then
    Except.error "WorkerPool is not started"
  else if st.queue_limit ≤ st.queued.length then
    Except.ok (false, st)
  else
    Except.ok (true, { st with queued := st.queued ++ [job] })

/-- One worker routine (`WorkerPool._worker_loop`, lines 67-75) consuming the
items it will take from the queue, in order: `none` is the stop sentinel.
The handler is any job handler; an exception from it propagates out of the
`try/finally` (which only calls `task_done`) and ends the loop.  The result
is the number of jobs the handler was invoked on and whether the worker
routine is still healthy (`true`: it returned normally or is still waiting;
`false`: it was terminated by a handler exception). -/
def workerLoop (handler : RunJob → Except String Unit) :
    List (Option RunJob) → Nat × Bool
  | [] => (0, true)
  | none :: _ => (0, true)
  | some job :: rest =>
    match handler job with
    | Except.ok _ =>
      let (n, alive) := workerLoop handler rest
      (n + 1, alive)
    | Except.error _ => (1, false)

/-- Number of jobs before the first stop sentinel: the jobs a healthy worker
taking these items would process. -/
def jobsBeforeSentinel : List (Option RunJob) → Nat
  | [] => 0
  | none :: _ => 0
  | some _ :: rest => jobsBeforeSentinel rest + 1

/-- Method `WorkerHandler.__call__` (`core/orchestrator.py` lines 207-211): invoke
the orchestrator and catch every `Exception`, logging it; the wrapped
handler itself never raises. -/
def workerHandlerCall (orchestrate : RunJob → Except String Unit)
    (job : RunJob) : Except String Unit :=
  match orchestrate job with
  | Except.ok _ => Except.ok ()
  | Except.error _ => Except.ok ()

/-! ## Webhook dispatcher (`infra/webhook_client.py`) -/

/-- Model of `httpx.Response.raise_for_status`: raises `HTTPStatusError` for any 4xx
or 5xx response status. -/
def raiseForStatus (status : Nat) : Except String Unit :=
  if 400 ≤ status ∧ status < 600 then
    Except.error ("HTTP error " ++ toString status)
  else
    Except.ok ()

/-- Method `DiscordWebhookClient.send_summary` (`infra/webhook_client.py` lines
22-62), reduced to its error behaviour: the POST yields a response with
`postStatus`; `response.raise_for_status()` runs inside `try/.../finally`
whose `finally` only closes the opened file handles, so an
`HTTPStatusError` propagates to the caller. -/
def sendSummary (postStatus : Nat) : Except String Unit :=
  raiseForStatus postStatus

/-- The webhook call site inside `TriageOrchestrator.execute`: the
`try/finally` around `send_summary` only guarantees cleanup, it catches
nothing, so the exception keeps propagating. -/
def executeWebhookPhase (postStatus : Nat) : Except String Unit :=
  sendSummary postStatus

/-- Model of `WorkerHandler.__call__` around a full `execute` whose webhook POST
returned `postStatus`: any exception is caught and logged. -/
def workerHandlerWebhookOutcome (postStatus : Nat) : Except String Unit :=
  match executeWebhookPhase postStatus with
  | Except.ok _ => Except.ok ()
  | Except.error _ => Except.ok ()

/-! ## Capped output capture (`infra/process_runner.py`)

Bytes are `Nat`; the stream a child process produces is the list of the
non-empty chunks successive `stream.read(65536)` calls return (`read`
returns `b""` only at end of stream, which `_read_capped` takes as the
break condition). -/

/-- Constant `MAX_CAPTURE_BYTES = 1_048_576` (1 MiB). -/
def MAX_CAPTURE_BYTES : Nat := 1048576

/-- The loop body of `_read_capped` (`infra/process_runner.py` lines 61-91):
`acc` is the `chunks` list of kept pieces, `total` the bytes kept so far and
`truncated` the flag.  An empty chunk means end of stream. -/
def readCappedLoop (max_bytes : Nat) :
    List (List Nat) → List (List Nat) → Nat → Bool → List Nat × Bool
  | [], acc, _, truncated => (acc.flatten, truncated)
  | chunk :: rest, acc, total, truncated =>
    if chunk.length = 0 then (acc.flatten, truncated)
    else
      let kept := if total < max_bytes then chunk.take (max_bytes - total) else []
      let acc' := if total < max_bytes then acc ++ [kept] else acc
      let truncated' := truncated || decide (kept.length < chunk.length)
      readCappedLoop max_bytes rest acc' (total + kept.length) truncated'

/-- Function `_read_capped(stream, max_bytes)` over the stream's chunk sequence. -/
def readCapped (max_bytes : Nat) (chunks : List (List Nat)) : List Nat × Bool :=
  readCappedLoop max_bytes chunks [] 0 false

/-- Function `_decode_output(raw, truncated)`: decode and, when the stream was
truncated, append the line `"\n[output truncated]\n"`.  The UTF-8
`errors="replace"` decoder is an input (`decode`), since the claim is about
what is kept and what is appended, not about UTF-8 itself. -/
def decodeOutput (decode : List Nat → String) (raw : List Nat)
    (truncated : Bool) : String :=
  if truncated then decode raw ++ "\n[output truncated]\n" else decode raw

/-! ## Temporary-file lifecycle of `TriageOrchestrator.execute`
(`core/orchestrator.py`)

The filesystem is the characteristic function of the set of existing paths.
`gzip_file` is from `infra/compression.py`: it writes `<path>.gz`
(`Path.with_suffix(suffix + ".gz")` appends `".gz"` to the name) and then
unlinks its source. -/

/-- Create a path. -/
def fsAdd (fs : String → Bool) (p : String) : String → Bool :=
  fun q => if q = p then true else fs q

/-- Model of `Path.unlink(missing_ok=True)`. -/
def fsRemove (fs : String → Bool) (p : String) : String → Bool :=
  fun q => if q = p then false else fs q

/-- Function `gzip_file(path)` (`infra/compression.py`): create `path ++ ".gz"`,
unlink `path`, return the destination. -/
def gzipFile (fs : String → Bool) (path : String) : (String → Bool) × String :=
  let dest := path ++ ".gz"
  (fsRemove (fsAdd fs dest) path, dest)

/-- Function `_existing_path` (`core/orchestrator.py` lines 278-284): drop a reported
audit path that does not exist. -/
def existingPath (fs : String → Bool) : Option String → Option String
  | none => none
  | some p => if fs p then some p else none

/-- The merged-audit path `/tmp/audit-<run_id>.jsonl` used by
`_compress_audit_sources`. -/
def mergedAuditPath (run_id : String) : String :=
  "/tmp/audit-" ++ run_id ++ ".jsonl"

/-- The report path `/tmp/audit-report-<run_id>.html` used by
`_write_html_report`. -/
def htmlReportPath (run_id : String) : String :=
  "/tmp/audit-report-" ++ run_id ++ ".html"

/-- Function `_compress_audit_sources` (`core/orchestrator.py` lines 287-311): with
both audits, write the merged JSONL, gzip it (which deletes the merged
file), and unlink both raw audit files; with one audit, gzip it in place
(which deletes the raw file); with none, do nothing. -/
def compressAuditSources (fs : String → Bool) (run_id : String) :
    Option String → Option String → (String → Bool) × Option String
  | some install_path, some sandbox_path =>
    let merged := mergedAuditPath run_id
    let fs1 := fsAdd fs merged
    let (fs2, attachment) := gzipFile fs1 merged
    let fs3 := fsRemove (fsRemove fs2 install_path) sandbox_path
    (fs3, some attachment)
  | some install_path, none =>
    let (fs2, attachment) := gzipFile fs install_path
    (fs2, some attachment)
  | none, some sandbox_path =>
    let (fs2, attachment) := gzipFile fs sandbox_path
    (fs2, some attachment)
  | none, none => (fs, none)

/-- Function `_write_html_report` (lines 731-751): write the report only when some
highlight set or the event histogram is non-empty (`hasData`). -/
def writeHtmlReport (fs : String → Bool) (run_id : String) (hasData : Bool) :
    (String → Bool) × Option String :=
  if hasData then (fsAdd fs (htmlReportPath run_id), some (htmlReportPath run_id))
  else (fs, none)

/-- Function `_build_attachment_list` (lines 323-332). -/
def buildAttachmentList (telemetry html : Option String) : List String :=
  telemetry.toList ++ html.toList

/-- Function `_cleanup_attachments` (lines 335-343): unlink every attachment path. -/
def cleanupAttachments (fs : String → Bool) (paths : List String) : String → Bool :=
  paths.foldl fsRemove fs

/-- One dispatch phase of `execute`: produce the attachment set for the
given audit sources, write the report, run the webhook inside
`try/.../finally _cleanup_attachments(...)` — the cleanup runs whether or
not `send_summary` raised, and an exception resumes propagating only after
it.  Returns the filesystem together with the phase outcome. -/
def dispatchPhase (fs : String → Bool) (run_id : String)
    (install_audit sandbox_audit : Option String) (hasData : Bool)
    (webhook : Except String Unit) : (String → Bool) × Except String Unit :=
  let (fs1, telemetry) := compressAuditSources fs run_id install_audit sandbox_audit
  let (fs2, html) := writeHtmlReport fs1 run_id hasData
  let fs3 := cleanupAttachments fs2 (buildAttachmentList telemetry html)
  (fs3, webhook)

/-- Input data of one `TriageOrchestrator.execute` run, as far as the
temporary-file lifecycle is concerned: the job's mode, the audit paths the
installer and the sandbox executor report, whether the highlight collection
found data on each branch's sources, the webhook outcome, and whether the
install succeeded. -/
structure ExecuteFsInput where
  mode : RunMode
  install_ok : Bool
  install_audit : Option String
  sandbox_audit : Option String
  hasDataInstallOnly : Bool
  hasDataRun : Bool
  webhook : Except String Unit

/-- The three dispatch branches of `TriageOrchestrator.execute`
(`core/orchestrator.py` lines 57-200), projected onto the filesystem.
`fs` is the filesystem at the point the orchestrator starts consulting it,
i.e. after the installer — and, for the execute branch, the sandbox
executor — have written whatever they wrote. -/
def executeFs (fs : String → Bool) (run_id : String) (inp : ExecuteFsInput) :
    (String → Bool) × Except String Unit :=
  let install_path := existingPath fs inp.install_audit
  if !inp.install_ok then
    dispatchPhase fs run_id install_path none inp.hasDataInstallOnly inp.webhook
  else if inp.mode = RunMode.install then
    dispatchPhase fs run_id install_path none inp.hasDataInstallOnly inp.webhook
  else
    let sandbox_path := existingPath fs inp.sandbox_audit
    dispatchPhase fs run_id install_path sandbox_path inp.hasDataRun inp.webhook

/-- A path `/tmp/audit-<run_id>*` or `/tmp/audit-report-<run_id>*`
(temporary paths of the run, per the spec's §6). -/
def matchesRunTemp (run_id p : String) : Bool :=
  pyStartsWith p ("/tmp/audit-" ++ run_id) ||
    pyStartsWith p ("/tmp/audit-report-" ++ run_id)

/-! ## JSON values and `json.loads` (used by `_parse_audit_record`)

A small recursive-descent model of `json.loads` from the Python standard
library, sufficient for the audit-line parser: the parser needs to know
whether a payload is valid JSON and whether the result is an object (a
`dict`).  Numbers are kept as their lexeme — the ingestor never looks at
them.  The recursion is driven by a fuel argument bounded by the input
length, which suffices because every recursive step consumes at least one
character. -/

/-- JSON values; `jobj` keeps the member list in source order. -/
inductive JVal where
  | jnull : JVal
  | jbool : Bool → JVal
  | jnum : String → JVal
  | jstr : String → JVal
  | jarr : List JVal → JVal
  | jobj : List (String × JVal) → JVal

/-- JSON inter-token whitespace (RFC 8259: space, tab, newline, return). -/
def jsonWs (c : Char) : Bool :=
  c = ' ' || c = '\t' || c = '\n' || c = '\r'

/-- Skip inter-token whitespace. -/
def skipJsonWs (cs : List Char) : List Char :=
  cs.dropWhile jsonWs

/-- Value of a hexadecimal digit. -/
def hexDigitVal (c : Char) : Option Nat :=
  if '0' ≤ c ∧ c ≤ '9' then some (c.toNat - '0'.toNat)
  else if 'a' ≤ c ∧ c ≤ 'f' then some (c.toNat - 'a'.toNat + 10)
  else if 'A' ≤ c ∧ c ≤ 'F' then some (c.toNat - 'A'.toNat + 10)
  else none

/-- Single-character JSON string escapes. -/
def jsonEscChar (c : Char) : Option Char :=
  if c = '"' then some '"'
  else if c = '\\' then some '\\'
  else if c = '/' then some '/'
  else if c = 'n' then some '\n'
  else if c = 't' then some '\t'
  else if c = 'r' then some '\r'
  else if c = 'b' then some (Char.ofNat 8)
  else if c = 'f' then some (Char.ofNat 12)
  else none

/-- Body of a JSON string, after the opening quote; returns the decoded
characters and the input after the closing quote.  (Astral characters
written as surrogate pairs decode pairwise here; the audit lines the
service parses do not use them.) -/
def parseJsonStringBody : List Char → Option (List Char × List Char)
  | [] => none
  | '"' :: rest => some ([], rest)
  | '\\' :: 'u' :: h1 :: h2 :: h3 :: h4 :: rest =>
    match hexDigitVal h1, hexDigitVal h2, hexDigitVal h3, hexDigitVal h4 with
    | some a, some b, some c, some d =>
      match parseJsonStringBody rest with
      | some (s, r) => some (Char.ofNat (((a * 16 + b) * 16 + c) * 16 + d) :: s, r)
      | none => none
    | _, _, _, _ => none
  | '\\' :: e :: rest =>
    match jsonEscChar e with
    | some c =>
      match parseJsonStringBody rest with
      | some (s, r) => some (c :: s, r)
      | none => none
    | none => none
  | c :: rest =>
    match parseJsonStringBody rest with
    | some (s, r) => some (c :: s, r)
    | none => none

/-- Digits prefix of the input. -/
def takeDigits (cs : List Char) : List Char × List Char :=
  (cs.takeWhile Char.isDigit, cs.dropWhile Char.isDigit)

/-- The fraction part of a JSON number lexeme (empty when absent; `none` on
a bare dot with no digits). -/
def parseJsonFrac (cs : List Char) : Option (List Char × List Char) :=
  match cs with
  | '.' :: r =>
    let (ds, r') := takeDigits r
    if ds.isEmpty then none else some (('.' :: ds : List Char), r')
  | _ => some ([], cs)

/-- The exponent part of a JSON number lexeme (empty when absent). -/
def parseJsonExp (cs : List Char) : Option (List Char × List Char) :=
  match cs with
  | e :: r =>
    if e = 'e' ∨ e = 'E' then
      match r with
      | s :: r' =>
        if s = '+' ∨ s = '-' then
          let (ds, r2) := takeDigits r'
          if ds.isEmpty then none else some ((e :: s :: ds : List Char), r2)
        else
          let (ds, r2) := takeDigits r
          if ds.isEmpty then none else some ((e :: ds : List Char), r2)
      | [] => none
    else some ([], cs)
  | [] => some ([], cs)

/-- A JSON number lexeme: `-? int frac? exp?` with no leading zeros in the
integer part. -/
def parseJsonNumber (cs : List Char) : Option (List Char × List Char) :=
  let (sign, cs1) := match cs with
    | '-' :: r => ((['-'] : List Char), r)
    | _ => (([] : List Char), cs)
  let (ip, cs2) := takeDigits cs1
  if ip.isEmpty then none
  else if 1 < ip.length ∧ ip.headI = '0' then none
  else
    match parseJsonFrac cs2 with
    | none => none
    | some (fp, cs3) =>
      match parseJsonExp cs3 with
      | none => none
      | some (es, cs4) => some (sign ++ ip ++ fp ++ es, cs4)

mutual

/-- Parse one JSON value, leading whitespace allowed. -/
def parseJVal : Nat → List Char → Option (JVal × List Char)
  | 0, _ => none
  | fuel + 1, cs =>
    match skipJsonWs cs with
    | '{' :: rest =>
      (match skipJsonWs rest with
       | '}' :: r => some (JVal.jobj [], r)
       | more =>
         match parseJObjMembers fuel more with
         | some (fields, r) => some (JVal.jobj fields, r)
         | none => none)
    | '[' :: rest =>
      (match skipJsonWs rest with
       | ']' :: r => some (JVal.jarr [], r)
       | more =>
         match parseJArrItems fuel more with
         | some (items, r) => some (JVal.jarr items, r)
         | none => none)
    | '"' :: rest =>
      (match parseJsonStringBody rest with
       | some (s, r) => some (JVal.jstr (String.mk s), r)
       | none => none)
    | 't' :: 'r' :: 'u' :: 'e' :: rest => some (JVal.jbool true, rest)
    | 'f' :: 'a' :: 'l' :: 's' :: 'e' :: rest => some (JVal.jbool false, rest)
    | 'n' :: 'u' :: 'l' :: 'l' :: rest => some (JVal.jnull, rest)
    | other =>
      match parseJsonNumber other with
      | some (lexeme, r) => some (JVal.jnum (String.mk lexeme), r)
      | none => none

/-- Members of a JSON object, positioned at the first key's opening quote. -/
def parseJObjMembers : Nat → List Char → Option (List (String × JVal) × List Char)
  | 0, _ => none
  | fuel + 1, cs =>
    match cs with
    | '"' :: rest =>
      (match parseJsonStringBody rest with
       | some (k, r1) =>
         (match skipJsonWs r1 with
          | ':' :: r2 =>
            (match parseJVal fuel r2 with
             | some (v, r3) =>
               (match skipJsonWs r3 with
                | ',' :: r4 =>
                  (match parseJObjMembers fuel (skipJsonWs r4) with
                   | some (ms, r5) => some ((String.mk k, v) :: ms, r5)
                   | none => none)
                | '}' :: r4 => some ([(String.mk k, v)], r4)
                | _ => none)
             | none => none)
          | _ => none)
       | none => none)
    | _ => none

/-- Items of a JSON array, positioned at the first item. -/
def parseJArrItems : Nat → List Char → Option (List JVal × List Char)
  | 0, _ => none
  | fuel + 1, cs =>
    match parseJVal fuel cs with
    | some (v, r1) =>
      (match skipJsonWs r1 with
       | ',' :: r2 =>
         (match parseJArrItems fuel r2 with
          | some (vs, r3) => some (v :: vs, r3)
          | none => none)
       | ']' :: r2 => some ([v], r2)
       | _ => none)
    | none => none

end

/-- Model of `json.loads`: parse one JSON document with nothing but whitespace
after it. -/
def jsonLoads (s : String) : Option JVal :=
  match parseJVal (s.data.length + 2) s.data with
  | some (v, rest) => if (skipJsonWs rest).isEmpty then some v else none
  | none => none

/-! ## The audit-line parser `_parse_audit_record`
(`core/orchestrator.py` lines 437-454) -/

/-- Python `str.partition(":")`: split at the first colon; the `Bool` is
whether a colon was found. -/
def partitionColonChars : List Char → Option (List Char × List Char)
  | [] => none
  | c :: rest =>
    if c = ':' then some ([], rest)
    else
      match partitionColonChars rest with
      | some (a, b) => some (c :: a, b)
      | none => none

/-- Python `str.partition(":")` on a string, as the triple
`(before, found, after)`. -/
def pyPartitionColon (s : String) : String × Bool × String :=
  match partitionColonChars s.data with
  | some (a, b) => (String.mk a, true, String.mk b)
  | none => (s, false, "")

/-- Python test for a leading left-brace character, as used by the parser. -/
def startsWithBrace (s : String) : Bool :=
  match s.data with
  | c :: _ => c = Char.ofNat 123
  | [] => false

/-- Function `_parse_audit_record(raw_line)`: strip the line; if it does not start
with `{`, strip a leading `install:`/`sandbox:` stage label when the rest
starts with `{`; then `json.loads` and keep only `dict` results. -/
def parseAuditRecord (raw_line : String) : Option (List (String × JVal)) :=
  let line := pyStrip raw_line
  if line.data.isEmpty then none
  else
    let payload :=
      if startsWithBrace line then line
      else
        let (pre, sep, tail) := pyPartitionColon line
        if sep && (pre = "install" || pre = "sandbox") && startsWithBrace tail then
          tail
        else line
    if startsWithBrace payload then
      match jsonLoads payload with
      | some (JVal.jobj fields) => some fields
      | _ => none
    else none

/-! ## Capped highlight sets of `_collect_audit_highlights`
(`core/orchestrator.py` lines 382-434)

Each of the four highlight sets is a Python `dict` used as an
insertion-ordered set: `d[key] = None` appends a *new* key at the end and
leaves an *existing* key where it is, and after each insertion
`if len(d) > HIGHLIGHT_MAX_ITEMS: d.pop(next(iter(d)))` evicts the first
(oldest) key.  `cappedInsert` is that discipline, generic in the key type
exactly as the `dict` is. -/

/-- Constant `HIGHLIGHT_MAX_ITEMS = 200`. -/
def HIGHLIGHT_MAX_ITEMS : Nat := 200

/-- Assignment `d[key] = None` followed by the overflow pop of the oldest key. -/
def cappedInsert {α : Type _} [DecidableEq α] (cap : Nat) (d : List α) (k : α) :
    List α :=
  let d' := if k ∈ d then d else d ++ [k]
  if cap < d'.length then d'.drop 1 else d'

/-- The set obtained by feeding a stream of keys through `cappedInsert`,
starting empty — one highlight set over the entries extracted for it. -/
def collectedSet {α : Type _} [DecidableEq α] (cap : Nat) (ks : List α) : List α :=
  ks.foldl (cappedInsert cap) []

/-- The keys of a stream in order of first occurrence (what an unbounded
insertion-ordered set would hold). -/
def firstOccurrences {α : Type _} [DecidableEq α] (ks : List α) : List α :=
  ks.foldl (fun acc k => if k ∈ acc then acc else acc ++ [k]) []

/-- What the extractors yield for one audit record: `_extract_written_file`,
`_extract_read_file`, `_extract_network_connection` (several rows) and
`_extract_subprocess`.  The extraction itself parses the record's `args`
text; the claim under study is about the set discipline, which is uniform
in whatever the extractors return, so a record enters the collector as its
extraction results. -/
structure AuditExtraction where
  writeFile : Option String
  readFile : Option String
  connections : List String
  subprocessCmd : Option String

/-- The four highlight sets of `_collect_audit_highlights` (the `top_events`
histogram is not a capped set and is outside claim C8). -/
structure HighlightSets where
  files_written : List String
  files_read : List String
  network_connections : List String
  subprocesses : List String

/-- The empty collector state. -/
def emptyHighlights : HighlightSets :=
  { files_written := [], files_read := [], network_connections := [],
    subprocesses := [] }

/-- Processing one parsed audit record from stage `stage`
(`core/orchestrator.py` lines 392-420): each extracted entry is prefixed
with `"<stage>: "` and inserted into its set with the overflow pop. -/
def collectRecord (st : HighlightSets) (stage : String) (e : AuditExtraction) :
    HighlightSets :=
  let fw := match e.writeFile with
    | some p => cappedInsert HIGHLIGHT_MAX_ITEMS st.files_written (stage ++ ": " ++ p)
    | none => st.files_written
  let fr := match e.readFile with
    | some p => cappedInsert HIGHLIGHT_MAX_ITEMS st.files_read (stage ++ ": " ++ p)
    | none => st.files_read
  let nc := e.connections.foldl
    (fun d item => cappedInsert HIGHLIGHT_MAX_ITEMS d (stage ++ ": " ++ item))
    st.network_connections
  let sp := match e.subprocessCmd with
    | some c => cappedInsert HIGHLIGHT_MAX_ITEMS st.subprocesses (stage ++ ": " ++ c)
    | none => st.subprocesses
  { files_written := fw, files_read := fr, network_connections := nc,
    subprocesses := sp }

/-- Function `_collect_audit_highlights` over the parsed records of all stage files,
in stream order, restricted to the four capped sets. -/
def collectAuditHighlights (records : List (String × AuditExtraction)) :
    HighlightSets :=
  records.foldl (fun st r => collectRecord st r.1 r.2) emptyHighlights

/-- The `files_written` entries a record stream offers, in stream order and
already stage-prefixed: the stream against which first-occurrence order of
the `files_written` set is judged. -/
def writtenEntries (records : List (String × AuditExtraction)) : List String :=
  records.filterMap fun r => r.2.writeFile.map (fun p => r.1 ++ ": " ++ p)

/-- The `files_read` entries a record stream offers, stage-prefixed, in
stream order. -/
def readEntries (records : List (String × AuditExtraction)) : List String :=
  records.filterMap fun r => r.2.readFile.map (fun p => r.1 ++ ": " ++ p)

/-- The `network_connections` entries a record stream offers, stage-prefixed,
in stream order. -/
def connectionEntries (records : List (String × AuditExtraction)) : List String :=
  (records.map fun r => r.2.connections.map (fun i => r.1 ++ ": " ++ i)).flatten

/-- The `subprocesses` entries a record stream offers, stage-prefixed, in
stream order. -/
def subprocessEntries (records : List (String × AuditExtraction)) : List String :=
  records.filterMap fun r => r.2.subprocessCmd.map (fun c => r.1 ++ ": " ++ c)

/-- Distinct keys for the C8 counterexample: `cexKey i` is `'a'` repeated
`i + 1` times, so keys are injective by length. -/
def cexKey (i : Nat) : String :=
  String.mk (List.replicate (i + 1) 'a')

/-- A stream of 201 distinct written files followed by a reappearance of
the first one. -/
def cexStream : List String :=
  (List.range 201).map cexKey ++ [cexKey 0]

/-- The C8 counterexample record stream: each key is a write event in the
install stage. -/
def cexRecords : List (String × AuditExtraction) :=
  cexStream.map fun p =>
    ("install", { writeFile := some p, readFile := none, connections := [],
                  subprocessCmd := none })

/-- The stage-prefixed entry the collector derives from `cexKey i`. -/
def cexEntry (i : Nat) : String :=
  "install" ++ ": " ++ cexKey i

/-! # Claim C1 — the HTTP adapter's call into `SubmissionService.submit` -/

/-- Claim C1 asserts that `SubmissionService.submit` accepts the `mode`,
`file_path`, `entrypoint` and `module_name` fields as the HTTP adapter
passes them, and that the created `RunJob` carries the request's mode and
optional targets.  The code contradicts this: `submit` declares only
`package_name`, `version`, `client_ip`, so the keyword binding of the call
in `api/routes.py` fails (CPython raises `TypeError` before the body runs),
and the `RunJob` that `submit` itself constructs always carries the
dataclass defaults — `mode=install` and no targets — whatever the request
said. -/
theorem submit_signature_rejects_route_call :
    pyBindOk submissionSubmitParams 2 triageRouteSubmitKwargs = false ∧
    "mode" ∈ triageRouteSubmitKwargs ∧
    "mode" ∉ submissionSubmitParams ∧
    ∀ run_id package_name version : String,
      (submitBuiltRunJob run_id package_name version).mode = RunMode.install ∧
      (submitBuiltRunJob run_id package_name version).file_path = none ∧
      (submitBuiltRunJob run_id package_name version).entrypoint = none ∧
      (submitBuiltRunJob run_id package_name version).module_name = none := by
  refine ⟨by decide, by decide, by decide, ?_⟩
  intro run_id package_name version
  exact ⟨rfl, rfl, rfl, rfl⟩

/-! # Claim C10 — `WorkerPool.submit` on a pool that is not started -/

/-- Claim C10: submitting to a pool that has not been started — before
`start`, or after `stop` has completed — raises `RuntimeError` instead of
returning the non-blocking accept/reject verdict; a freshly constructed
pool is not started and `stop` leaves the pool not started. -/
theorem pool_submit_requires_started :
    (∀ (st : PoolState) (job : RunJob), st.started = false →
        poolSubmit st job = Except.error "WorkerPool is not started") ∧
    (∀ queue_limit, (poolInit queue_limit).started = false) ∧
    (∀ st : PoolState, (poolStop st).started = false) := by
  refine ⟨?_, fun _ => rfl, fun _ => rfl⟩
  intro st job h
  simp [poolSubmit, h]

/-- Witness for C10: a fresh pool with capacity 5 rejects a concrete job
with the `RuntimeError` message. -/
theorem pool_submit_requires_started_witness :
    poolSubmit (poolInit 5)
        { run_id := "r1", package_name := "requests", version := "2.0" } =
      Except.error "WorkerPool is not started" :=
  pool_submit_requires_started.1 (poolInit 5)
    { run_id := "r1", package_name := "requests", version := "2.0" } rfl

/-! # Claim C3 — webhook POST failures -/

/-- Counterexample for claim C3: the claim says `send_summary` does not
raise to its caller on an HTTP error status, but `send_summary` has no
`except` clause — `raise_for_status` on a 500 response propagates an
`HTTPStatusError` out of it. -/
theorem send_summary_raises_on_http_error_cex :
    sendSummary 500 ≠ Except.ok () := by
  simp [sendSummary, raiseForStatus]

/-- Claim C3 as amended: on an HTTP error status the `HTTPStatusError`
propagates out of `send_summary` and out of the orchestrator's dispatch
(whose `try/finally` only guarantees cleanup); it is caught — logged and
swallowed — by `WorkerHandler.__call__`, so the worker completes the run
without the error escaping. -/
theorem webhook_error_swallowed_by_worker_handler (status : Nat)
    (h400 : 400 ≤ status) (h600 : status < 600) :
    sendSummary status = Except.error ("HTTP error " ++ toString status) ∧
    executeWebhookPhase status = sendSummary status ∧
    workerHandlerWebhookOutcome status = Except.ok () := by
  have hs : sendSummary status = Except.error ("HTTP error " ++ toString status) := by
    simp [sendSummary, raiseForStatus, h400, h600]
  refine ⟨hs, rfl, ?_⟩
  simp [workerHandlerWebhookOutcome, executeWebhookPhase, hs]

/-- Witness for the amended C3 at status 500. -/
theorem webhook_error_swallowed_by_worker_handler_witness :
    sendSummary 500 = Except.error ("HTTP error " ++ toString 500) ∧
    executeWebhookPhase 500 = sendSummary 500 ∧
    workerHandlerWebhookOutcome 500 = Except.ok () :=
  webhook_error_swallowed_by_worker_handler 500 (by decide) (by decide)

/-! # Claim C4 — handler errors and worker survival -/

/-- Counterexample for claim C4: with a handler that raises on a job, the
worker loop — whose `try/finally` around the handler only calls
`task_done` — is terminated by the error and never takes the next queued
job, against the claim that an error never terminates the worker. -/
theorem worker_loop_killed_by_raising_handler_cex :
    ¬ (workerLoop
        (fun j => if j.run_id = "boom" then Except.error "RuntimeError" else Except.ok ())
        [some { run_id := "boom", package_name := "x", version := "1" },
         some { run_id := "next", package_name := "x", version := "1" }] =
      (jobsBeforeSentinel
        [some { run_id := "boom", package_name := "x", version := "1" },
         some { run_id := "next", package_name := "x", version := "1" }], true)) := by
  decide

/-- Claim C4 as amended: the worker loop itself does not protect against a
raising handler, but the handler the application installs is
`WorkerHandler.__call__`, which catches every exception from the
orchestrator; with it a worker routine survives any orchestrator error and
processes every job it takes from the queue. -/
theorem worker_survives_with_worker_handler
    (orchestrate : RunJob → Except String Unit)
    (items : List (Option RunJob)) :
    workerLoop (workerHandlerCall orchestrate) items =
      (jobsBeforeSentinel items, true) := by
  induction items with
  | nil => rfl
  | cons hd tl ih =>
    cases hd with
    | none => rfl
    | some job =>
      have h : workerHandlerCall orchestrate job = Except.ok () := by
        unfold workerHandlerCall
        cases orchestrate job <;> rfl
      simp [workerLoop, h, ih, jobsBeforeSentinel]

/-! # Claim C9 — denylist normalization and the denial short-circuit -/

/-- Counterexample for claim C9: the claim defines the normalization as
lower-casing plus separator collapsing only, but `normalize_package_name`
also strips surrounding whitespace first, so for `" torch"` against
denylist `["torch"]` the code denies while the claimed criterion does not:
the claimed "exactly when" fails. -/
theorem denylist_claimed_normalization_cex :
    is_denied_package " torch" ["torch"] ≠ claimedDenied " torch" ["torch"] := by
  decide

/-- Claim C9 as amended: a package is denied exactly when its normalization
— surrounding whitespace stripped, then lower-cased, then every run of
`-`, `_`, `.` collapsed to a single `-` — equals a normalized denylist
entry or begins with that entry followed by `-`; a denied submission
returns `DENIED_PACKAGE` with no run id minted and nothing enqueued; and
in particular `torch_cpu` is denied against `torch` while `torchserve` is
not. -/
theorem denylist_denial_characterization :
    (∀ (p : String) (denylist : List String),
        is_denied_package p denylist = true ↔
          ∃ d ∈ denylist,
            normalize_package_name p = normalize_package_name d ∨
            pyStartsWith (normalize_package_name p)
                (normalize_package_name d ++ "-") = true) ∧
    (∀ (denylist : List String) (rateAllow gateAccept : Bool)
        (freshId p v : String),
        is_denied_package p denylist = true →
          submissionSubmit denylist rateAllow gateAccept freshId p v =
            { result := { status := SubmitStatus.denied_package, run_id := none },
              minted := false, gateJob := none }) ∧
    is_denied_package "torch_cpu" ["torch"] = true ∧
    is_denied_package "torchserve" ["torch"] = false := by
  refine ⟨?_, ?_, by decide, by decide⟩
  · intro p denylist
    simp [is_denied_package, List.any_eq_true, Bool.or_eq_true,
      decide_eq_true_iff]
  · intro denylist rateAllow gateAccept freshId p v h
    simp [submissionSubmit, h]

/-- Witness for the amended C9: the spec's own example `Torch_CPU` against
denylist `torch` is denied with no run id. -/
theorem denylist_denial_characterization_witness :
    submissionSubmit ["torch"] true true "run-1" "Torch_CPU" "1.0" =
      { result := { status := SubmitStatus.denied_package, run_id := none },
        minted := false, gateJob := none } :=
  denylist_denial_characterization.2.1 ["torch"] true true "run-1" "Torch_CPU" "1.0"
    (by decide)

/-! # Claim C7 — the 1 MiB capture cap of `_read_capped` -/

/-- Taking `n` of a list whose first part was already cut at `n` is the same
as taking `n` of the uncut list. -/
theorem take_of_take_append {α : Type _} (n : Nat) (c r : List α) :
    (c.take n ++ r).take n = (c ++ r).take n := by
  rcases Nat.le_total c.length n with h | h
  · rw [List.take_of_length_le h]
  · rw [List.take_append_of_le_length h,
      List.take_append_of_le_length (by simpa using h), List.take_take,
      Nat.min_self]

/-- Invariant of the `_read_capped` read loop: started with kept chunks
`acc` (whose flattened length, the running `total`, is within the cap) and
flag `truncated`, and fed non-empty chunks, the loop returns the first
`max_bytes` bytes of everything read and flags truncation exactly when the
stream exceeded the cap. -/
theorem readCappedLoop_spec (max_bytes : Nat) :
    ∀ (chunks : List (List Nat)) (acc : List (List Nat)) (truncated : Bool),
      (∀ c ∈ chunks, c ≠ []) → acc.flatten.length ≤ max_bytes →
      readCappedLoop max_bytes chunks acc acc.flatten.length truncated =
        ((acc.flatten ++ chunks.flatten).take max_bytes,
         truncated || decide (max_bytes < (acc.flatten ++ chunks.flatten).length)) := by
  intro chunks
  induction chunks with
  | nil =>
    intro acc truncated _ hle
    have hflag : decide (max_bytes < (acc.flatten ++ ([] : List (List Nat)).flatten).length)
        = false := by
      simp only [List.flatten_nil, List.append_nil]
      simpa using Nat.not_lt.mpr hle
    rw [readCappedLoop, hflag]
    simp only [List.flatten_nil, List.append_nil, Bool.or_false]
    rw [List.take_of_length_le hle]
  | cons c rest ih =>
    intro acc truncated hne hle
    have hc : c ≠ [] := hne c (List.mem_cons_self c rest)
    have hcpos : 0 < c.length := List.length_pos.mpr hc
    have hcl : ¬ c.length = 0 := by omega
    have hrest : ∀ x ∈ rest, x ≠ [] := fun x hx => hne x (List.mem_cons_of_mem c hx)
    rw [readCappedLoop]
    simp only [hcl, if_false]
    by_cases hlt : acc.flatten.length < max_bytes
    · simp only [hlt, if_true]
      have hkeep : (acc ++ [c.take (max_bytes - acc.flatten.length)]).flatten =
          acc.flatten ++ c.take (max_bytes - acc.flatten.length) := by
        simp
      have hlen : (acc ++ [c.take (max_bytes - acc.flatten.length)]).flatten.length =
          acc.flatten.length + (c.take (max_bytes - acc.flatten.length)).length := by
        simp
      have hle' : (acc ++ [c.take (max_bytes - acc.flatten.length)]).flatten.length
          ≤ max_bytes := by
        rw [hlen, List.length_take]
        omega
      have hrec := ih (acc ++ [c.take (max_bytes - acc.flatten.length)])
        (truncated || decide ((c.take (max_bytes - acc.flatten.length)).length < c.length))
        hrest hle'
      rw [hlen] at hrec
      rw [hrec, hkeep, Prod.mk.injEq]
      have hsplit : ∀ X : List Nat,
          List.take max_bytes (acc.flatten ++ X) =
            acc.flatten ++ List.take (max_bytes - acc.flatten.length) X := by
        intro X
        rw [List.take_append_eq_append_take,
          List.take_of_length_le (Nat.le_of_lt hlt)]
      refine ⟨?_, ?_⟩
      · rw [List.flatten_cons, List.append_assoc, hsplit, hsplit,
          take_of_take_append]
      · rw [Bool.or_assoc]
        congr 1
        rw [← Bool.decide_or, decide_eq_decide]
        simp only [List.length_append, List.length_take, List.flatten_cons]
        constructor <;> (intro h; omega)
    · simp only [hlt, if_false]
      have heq : acc.flatten.length = max_bytes := by omega
      have hlen0 : acc.flatten.length + List.length ([] : List Nat) =
          acc.flatten.length := by simp
      have hrec := ih acc (truncated || decide (List.length ([] : List Nat) < c.length))
        hrest hle
      rw [hlen0, hrec, Prod.mk.injEq]
      have htrue : decide (List.length ([] : List Nat) < c.length) = true := by
        simpa using hcpos
      have hsplit0 : ∀ X : List Nat,
          List.take max_bytes (acc.flatten ++ X) = acc.flatten := by
        intro X
        have h0 : max_bytes - acc.flatten.length = 0 := by omega
        rw [List.take_append_eq_append_take, List.take_of_length_le hle, h0]
        simp
      refine ⟨?_, ?_⟩
      · rw [List.flatten_cons, hsplit0, hsplit0]
      · have hgt : decide (max_bytes < (acc.flatten ++ (c :: rest).flatten).length)
            = true := by
          simp only [List.flatten_cons, List.length_append, decide_eq_true_iff]
          omega
        rw [htrue, hgt]
        simp

/-- The behaviour of `_read_capped` on a whole stream. -/
theorem readCapped_eq (max_bytes : Nat) (chunks : List (List Nat))
    (hne : ∀ c ∈ chunks, c ≠ []) :
    readCapped max_bytes chunks =
      (chunks.flatten.take max_bytes,
       decide (max_bytes < chunks.flatten.length)) := by
  have := readCappedLoop_spec max_bytes chunks [] false hne (by simp)
  simpa [readCapped] using this

/-- Claim C7: each captured stream is capped at 1 MiB
(`MAX_CAPTURE_BYTES = 1048576` bytes): a stream of at most 1 MiB is
returned in full with the truncation flag unset and no marker appended,
while a stream of at least 1 MiB + 1 bytes is returned as its first 1 MiB
with the flag set, and `_decode_output` then appends the line
`"\n[output truncated]\n"`. -/
theorem read_capped_one_mib_cap (chunks : List (List Nat))
    (hne : ∀ c ∈ chunks, c ≠ []) (decode : List Nat → String) :
    (chunks.flatten.length ≤ MAX_CAPTURE_BYTES →
      readCapped MAX_CAPTURE_BYTES chunks = (chunks.flatten, false) ∧
      decodeOutput decode (readCapped MAX_CAPTURE_BYTES chunks).1
          (readCapped MAX_CAPTURE_BYTES chunks).2 = decode chunks.flatten) ∧
    (MAX_CAPTURE_BYTES + 1 ≤ chunks.flatten.length →
      readCapped MAX_CAPTURE_BYTES chunks =
        (chunks.flatten.take MAX_CAPTURE_BYTES, true) ∧
      decodeOutput decode (readCapped MAX_CAPTURE_BYTES chunks).1
          (readCapped MAX_CAPTURE_BYTES chunks).2 =
        decode (chunks.flatten.take MAX_CAPTURE_BYTES) ++ "\n[output truncated]\n") := by
  have h := readCapped_eq MAX_CAPTURE_BYTES chunks hne
  constructor
  · intro hle
    have hflag : decide (MAX_CAPTURE_BYTES < chunks.flatten.length) = false := by
      simpa using Nat.not_lt.mpr hle
    have h1 : readCapped MAX_CAPTURE_BYTES chunks = (chunks.flatten, false) := by
      rw [h, hflag, List.take_of_length_le hle]
    exact ⟨h1, by rw [h1]; simp [decodeOutput]⟩
  · intro hgt
    have hflag : decide (MAX_CAPTURE_BYTES < chunks.flatten.length) = true :=
      decide_eq_true (by omega)
    have h1 : readCapped MAX_CAPTURE_BYTES chunks =
        (chunks.flatten.take MAX_CAPTURE_BYTES, true) := by
      rw [h, hflag]
    exact ⟨h1, by rw [h1]; simp [decodeOutput]⟩

/-- Witness for C7: a concrete three-byte stream is far below the cap and
comes back whole, flag unset. -/
theorem read_capped_one_mib_cap_witness :
    readCapped MAX_CAPTURE_BYTES [[104, 105, 10]] = ([104, 105, 10], false) :=
  ((read_capped_one_mib_cap [[104, 105, 10]] (by decide) (fun _ => "")).1
    (by decide)).1

/-! # Claim C8 — the capped, insertion-ordered highlight sets -/

section CappedSetLemmas

variable {α : Type _} [DecidableEq α]

/-- Inserting a key that is already present into a set within its capacity
changes nothing — neither order nor size. -/
theorem cappedInsert_mem (cap : Nat) (d : List α) (k : α)
    (hk : k ∈ d) (hle : d.length ≤ cap) : cappedInsert cap d k = d := by
  simp [cappedInsert, hk, Nat.not_lt.mpr hle]

/-- Inserting a new key into a set with spare capacity appends it. -/
theorem cappedInsert_not_mem_spare (cap : Nat) (d : List α) (k : α)
    (hk : k ∉ d) (hlt : d.length < cap) : cappedInsert cap d k = d ++ [k] := by
  have hno : ¬ cap < d.length + 1 := by omega
  simp [cappedInsert, hk, hno]

/-- Inserting a new key into a full set appends it and evicts the oldest
(first) entry. -/
theorem cappedInsert_not_mem_full (cap : Nat) (d : List α) (k : α)
    (hk : k ∉ d) (hge : cap ≤ d.length) :
    cappedInsert cap d k = (d ++ [k]).drop 1 := by
  have hyes : cap < d.length + 1 := by omega
  simp [cappedInsert, hk, hyes]

/-- Lemma: `cappedInsert` preserves deduplication. -/
theorem cappedInsert_nodup (cap : Nat) (d : List α) (k : α)
    (hnd : d.Nodup) : (cappedInsert cap d k).Nodup := by
  have hd' : (if k ∈ d then d else d ++ [k]).Nodup := by
    by_cases hk : k ∈ d
    · simpa [hk] using hnd
    · simp only [hk, if_false]
      simp [List.nodup_append, hnd, hk]
  unfold cappedInsert
  by_cases hcap : cap < (if k ∈ d then d else d ++ [k]).length
  · simpa [hcap] using hd'.sublist (List.drop_sublist 1 _)
  · simpa [hcap] using hd'

/-- Lemma: `cappedInsert` never exceeds the capacity. -/
theorem cappedInsert_length_le (cap : Nat) (d : List α) (k : α)
    (hle : d.length ≤ cap) : (cappedInsert cap d k).length ≤ cap := by
  unfold cappedInsert
  by_cases hk : k ∈ d
  · rw [if_pos hk, if_neg (Nat.not_lt.mpr hle)]
    exact hle
  · rw [if_neg hk]
    by_cases hcap : cap < (d ++ [k]).length
    · rw [if_pos hcap]
      simp only [List.length_drop, List.length_append, List.length_singleton]
      omega
    · rw [if_neg hcap]
      simp only [List.length_append, List.length_singleton] at hcap ⊢
      omega

/-- Invariant of folding `cappedInsert`: deduplication and the cap hold
from any well-formed start. -/
theorem foldl_cappedInsert_inv (cap : Nat) :
    ∀ (ks : List α) (d : List α), d.Nodup → d.length ≤ cap →
      (ks.foldl (cappedInsert cap) d).Nodup ∧
      (ks.foldl (cappedInsert cap) d).length ≤ cap := by
  intro ks
  induction ks with
  | nil => intro d hnd hle; exact ⟨hnd, hle⟩
  | cons k rest ih =>
    intro d hnd hle
    exact ih (cappedInsert cap d k) (cappedInsert_nodup cap d k hnd)
      (cappedInsert_length_le cap d k hle)

/-- Every collected set is deduplicated. -/
theorem collectedSet_nodup (cap : Nat) (ks : List α) :
    (collectedSet cap ks).Nodup :=
  (foldl_cappedInsert_inv cap ks [] List.nodup_nil (by simp)).1

/-- Every collected set respects the capacity. -/
theorem collectedSet_length_le (cap : Nat) (ks : List α) :
    (collectedSet cap ks).length ≤ cap :=
  (foldl_cappedInsert_inv cap ks [] List.nodup_nil (by simp)).2

/-- Peeling the last stream element off a collected set. -/
theorem collectedSet_append_singleton (cap : Nat) (ks : List α) (k : α) :
    collectedSet cap (ks ++ [k]) = cappedInsert cap (collectedSet cap ks) k := by
  simp [collectedSet, List.foldl_append]

/-- Peeling the last stream element off the first-occurrence list. -/
theorem firstOccurrences_append_singleton (ks : List α) (k : α) :
    firstOccurrences (ks ++ [k]) =
      if k ∈ firstOccurrences ks then firstOccurrences ks
      else firstOccurrences ks ++ [k] := by
  simp [firstOccurrences, List.foldl_append]

/-- The first-occurrence list of a stream with no duplicates is the stream
itself. -/
theorem firstOccurrences_of_nodup :
    ∀ ks : List α, ks.Nodup → firstOccurrences ks = ks := by
  intro ks
  induction ks using List.reverseRecOn with
  | nil => intro _; rfl
  | append_singleton ks k ih =>
    intro hnd
    have hks : ks.Nodup := hnd.sublist (List.sublist_append_left ks [k])
    have hk : k ∉ ks := by
      simp [List.nodup_append] at hnd
      exact hnd.2
    rw [firstOccurrences_append_singleton, ih hks, if_neg hk]

/-- While the stream has at most `cap` distinct entries, the collected set
is exactly the first-occurrence list. -/
theorem collectedSet_of_few (cap : Nat) :
    ∀ ks : List α, (firstOccurrences ks).length ≤ cap →
      collectedSet cap ks = firstOccurrences ks := by
  intro ks
  induction ks using List.reverseRecOn with
  | nil => intro _; rfl
  | append_singleton ks k ih =>
    intro hle
    have hmono : (firstOccurrences ks).length ≤
        (firstOccurrences (ks ++ [k])).length := by
      rw [firstOccurrences_append_singleton]
      by_cases hk : k ∈ firstOccurrences ks <;> simp [hk]
    rw [collectedSet_append_singleton, ih (le_trans hmono hle),
      firstOccurrences_append_singleton]
    by_cases hk : k ∈ firstOccurrences ks
    · rw [if_pos hk]
      exact cappedInsert_mem cap _ k hk (le_trans hmono hle)
    · rw [if_neg hk]
      rw [firstOccurrences_append_singleton, if_neg hk] at hle
      have hlt : (firstOccurrences ks).length < cap := by
        simp at hle; omega
      exact cappedInsert_not_mem_spare cap _ k hk hlt

/-- Feeding exactly `cap + 1` distinct entries evicts the very first one. -/
theorem collectedSet_nodup_overflow (cap : Nat) :
    ∀ ks : List α, ks.Nodup → ks.length = cap + 1 →
      collectedSet cap ks = ks.drop 1 := by
  intro ks
  induction ks using List.reverseRecOn with
  | nil => intro _ h; simp at h
  | append_singleton ks k _ =>
    intro hnd hlen
    have hks : ks.Nodup := hnd.sublist (List.sublist_append_left ks [k])
    have hk : k ∉ ks := by
      simp [List.nodup_append] at hnd
      exact hnd.2
    have hkslen : ks.length = cap := by simp at hlen; omega
    have hfew : collectedSet cap ks = ks := by
      rw [collectedSet_of_few cap ks (by rw [firstOccurrences_of_nodup ks hks]; omega),
        firstOccurrences_of_nodup ks hks]
    rw [collectedSet_append_singleton, hfew,
      cappedInsert_not_mem_full cap ks k hk (le_of_eq hkslen.symm)]

end CappedSetLemmas


/-- The record collector is, on each of its four sets, the `cappedInsert`
fold over that set's extracted entry stream. -/
theorem collect_components :
    ∀ (records : List (String × AuditExtraction)) (st : HighlightSets),
      records.foldl (fun s r => collectRecord s r.1 r.2) st =
        { files_written := (writtenEntries records).foldl
            (cappedInsert HIGHLIGHT_MAX_ITEMS) st.files_written,
          files_read := (readEntries records).foldl
            (cappedInsert HIGHLIGHT_MAX_ITEMS) st.files_read,
          network_connections := (connectionEntries records).foldl
            (cappedInsert HIGHLIGHT_MAX_ITEMS) st.network_connections,
          subprocesses := (subprocessEntries records).foldl
            (cappedInsert HIGHLIGHT_MAX_ITEMS) st.subprocesses } := by
  intro records
  induction records with
  | nil => intro st; simp [writtenEntries, readEntries, connectionEntries,
      subprocessEntries]
  | cons r rest ih =>
    intro st
    rw [List.foldl_cons, ih]
    simp only [writtenEntries, readEntries, connectionEntries, subprocessEntries,
      List.filterMap_cons, List.map_cons, List.flatten_cons, List.foldl_append,
      List.foldl_map]
    cases hw : r.2.writeFile <;> cases hr : r.2.readFile <;>
      cases hs : r.2.subprocessCmd <;>
      simp [collectRecord, hw, hr, hs, List.foldl_map, writtenEntries,
        readEntries, connectionEntries, subprocessEntries]

/-- The four highlight sets, as collected sets over their entry streams. -/
theorem collectAuditHighlights_eq (records : List (String × AuditExtraction)) :
    collectAuditHighlights records =
      { files_written := collectedSet HIGHLIGHT_MAX_ITEMS (writtenEntries records),
        files_read := collectedSet HIGHLIGHT_MAX_ITEMS (readEntries records),
        network_connections :=
          collectedSet HIGHLIGHT_MAX_ITEMS (connectionEntries records),
        subprocesses := collectedSet HIGHLIGHT_MAX_ITEMS (subprocessEntries records) } :=
  collect_components records emptyHighlights

/-- The `files_written` component of the collector, as a collected set. -/
theorem collect_files_written_eq (records : List (String × AuditExtraction)) :
    (collectAuditHighlights records).files_written =
      collectedSet HIGHLIGHT_MAX_ITEMS (writtenEntries records) := by
  rw [collectAuditHighlights_eq]


/-- Entry lengths separate the counterexample keys. -/
theorem cexEntry_length (i : Nat) : (cexEntry i).length = 10 + i := by
  have h1 : "install".length = 7 := rfl
  have h2 : ": ".length = 2 := rfl
  have h3 : (cexKey i).length = i + 1 := by
    have : (cexKey i).length = (List.replicate (i + 1) 'a').length := rfl
    rw [this, List.length_replicate]
  rw [cexEntry, String.length_append, String.length_append, h1, h2, h3]
  omega

/-- The counterexample entries are pairwise distinct. -/
theorem cexEntry_injective : Function.Injective cexEntry := by
  intro i j h
  have := congrArg String.length h
  rw [cexEntry_length, cexEntry_length] at this
  omega

/-- The written-file entry stream of the counterexample records. -/
theorem writtenEntries_cexRecords :
    writtenEntries cexRecords = (List.range 201).map cexEntry ++ [cexEntry 0] := by
  have key : ∀ l : List String,
      writtenEntries (l.map fun p =>
        (("install", { writeFile := some p, readFile := none, connections := [],
                       subprocessCmd := none }) : String × AuditExtraction)) =
        l.map fun p => "install" ++ ": " ++ p := by
    intro l
    induction l with
    | nil => rfl
    | cons a t ih =>
      simp only [writtenEntries, List.map_cons, List.filterMap_cons] at ih ⊢
      rw [ih]
      rfl
  rw [cexRecords, key, cexStream, List.map_append, List.map_map]
  rfl

/-- Counterexample for claim C8: the claim includes that entries of a
highlight set always appear in order of first occurrence.  With 201
distinct written files followed by a reappearance of the first one, the
dict eviction removes the first entry and the re-insertion appends it at
the end, so the final `files_written` set holds the first file *after*
later ones — it is not a sublist of the first-occurrence order of its
entry stream. -/
theorem highlight_order_not_first_occurrence_cex :
    ¬ List.Sublist (collectAuditHighlights cexRecords).files_written
        (firstOccurrences (writtenEntries cexRecords)) := by
  have hnodup : ((List.range 201).map cexEntry).Nodup :=
    (List.nodup_range 201).map cexEntry_injective
  have hmem0 : cexEntry 0 ∈ (List.range 201).map cexEntry :=
    List.mem_map_of_mem cexEntry (List.mem_range.mpr (by omega))
  have hF : firstOccurrences (writtenEntries cexRecords) =
      (List.range 201).map cexEntry := by
    rw [writtenEntries_cexRecords, firstOccurrences_append_singleton,
      firstOccurrences_of_nodup _ hnodup, if_pos hmem0]
  have hdrop : ((List.range 201).map cexEntry).drop 1 =
      ((List.range 201).drop 1).map cexEntry := by
    rw [List.map_drop]
  have hrange1 : (List.range 201).drop 1 = List.range' 1 200 := by
    rw [List.range_eq_range']
    rfl
  have hnotmem : cexEntry 0 ∉ ((List.range 201).map cexEntry).drop 1 := by
    rw [hdrop, hrange1]
    intro hmem
    rcases List.mem_map.mp hmem with ⟨j, hj, hje⟩
    have hj0 : j = 0 := cexEntry_injective hje
    subst hj0
    rw [List.mem_range'_1] at hj
    omega
  have hlen201 : ((List.range 201).map cexEntry).length =
      HIGHLIGHT_MAX_ITEMS + 1 := by
    simp [HIGHLIGHT_MAX_ITEMS]
  have hC : (collectAuditHighlights cexRecords).files_written =
      (((List.range 201).map cexEntry).drop 1 ++ [cexEntry 0]).drop 1 := by
    rw [collect_files_written_eq, writtenEntries_cexRecords,
      collectedSet_append_singleton,
      collectedSet_nodup_overflow HIGHLIGHT_MAX_ITEMS _ hnodup hlen201,
      cappedInsert_not_mem_full HIGHLIGHT_MAX_ITEMS _ _ hnotmem
        (by simp [HIGHLIGHT_MAX_ITEMS])]
  intro hsub
  rw [hC, hF] at hsub
  have hCeq : ((((List.range 201).map cexEntry).drop 1) ++ [cexEntry 0]).drop 1 =
      (((List.range 201).map cexEntry).drop 1).drop 1 ++ [cexEntry 0] :=
    List.drop_append_of_le_length (by simp)
  rw [hCeq] at hsub
  have hpair : ((List.range 201).map cexEntry).Pairwise
      (fun a b => a.length < b.length) := by
    refine List.Pairwise.map cexEntry ?_ (List.pairwise_lt_range 201)
    intro a b hab
    rw [cexEntry_length, cexEntry_length]
    omega
  have hpairC := hpair.sublist hsub
  rcases List.pairwise_append.mp hpairC with ⟨-, -, hcross⟩
  have h2mem : cexEntry 2 ∈ (((List.range 201).map cexEntry).drop 1).drop 1 := by
    rw [List.drop_drop, ← List.map_drop, List.range_eq_range']
    have hr2 : (List.range' 0 201).drop (1 + 1) = List.range' 2 199 := rfl
    rw [hr2]
    exact List.mem_map_of_mem cexEntry (List.mem_range'_1.mpr ⟨by omega, by omega⟩)
  have hlt := hcross (cexEntry 2) h2mem (cexEntry 0) (List.mem_singleton_self _)
  rw [cexEntry_length, cexEntry_length] at hlt
  omega

/-- Claim C8 as amended: each of the four highlight sets built by
`_collect_audit_highlights` is the `cappedInsert` fold of its stage-prefixed
entry stream; every such set is deduplicated and holds at most 200 entries;
inserting an entry already present changes neither order nor size; a new
distinct entry arriving at capacity is appended while the oldest entry is
evicted; and as long as a stream has at most 200 distinct entries its set
lists them exactly in order of first occurrence.  (With more than 200
distinct entries, an evicted entry that recurs re-enters at the end, so
first-occurrence order can be violated — see the counterexample.) -/
theorem highlight_sets_capped_discipline :
    (∀ records : List (String × AuditExtraction),
        collectAuditHighlights records =
          { files_written := collectedSet HIGHLIGHT_MAX_ITEMS (writtenEntries records),
            files_read := collectedSet HIGHLIGHT_MAX_ITEMS (readEntries records),
            network_connections :=
              collectedSet HIGHLIGHT_MAX_ITEMS (connectionEntries records),
            subprocesses :=
              collectedSet HIGHLIGHT_MAX_ITEMS (subprocessEntries records) }) ∧
    (∀ ks : List String,
        (collectedSet HIGHLIGHT_MAX_ITEMS ks).Nodup ∧
        (collectedSet HIGHLIGHT_MAX_ITEMS ks).length ≤ HIGHLIGHT_MAX_ITEMS) ∧
    (∀ (cap : Nat) (d : List String) (k : String), k ∈ d → d.length ≤ cap →
        cappedInsert cap d k = d) ∧
    (∀ (cap : Nat) (d : List String) (k : String), k ∉ d → cap ≤ d.length →
        cappedInsert cap d k = (d ++ [k]).drop 1) ∧
    (∀ ks : List String,
        (firstOccurrences ks).length ≤ HIGHLIGHT_MAX_ITEMS →
        collectedSet HIGHLIGHT_MAX_ITEMS ks = firstOccurrences ks) := by
  refine ⟨collectAuditHighlights_eq, ?_, ?_, ?_, ?_⟩
  · intro ks
    exact ⟨collectedSet_nodup _ ks, collectedSet_length_le _ ks⟩
  · intro cap d k hk hle
    exact cappedInsert_mem cap d k hk hle
  · intro cap d k hk hge
    exact cappedInsert_not_mem_full cap d k hk hge
  · intro ks hle
    exact collectedSet_of_few _ ks hle

/-- Witness for the amended C8, instantiating the hypothesis-bearing parts:
re-inserting a present entry is a no-op, an overflow evicts the head, and a
short stream collects in first-occurrence order. -/
theorem highlight_sets_capped_discipline_witness :
    cappedInsert 200 ["a"] "a" = ["a"] ∧
    cappedInsert 1 ["a"] "b" = (["a"] ++ ["b"]).drop 1 ∧
    collectedSet HIGHLIGHT_MAX_ITEMS ["x", "y", "x"] =
      firstOccurrences ["x", "y", "x"] :=
  ⟨highlight_sets_capped_discipline.2.2.1 200 ["a"] "a" (by decide) (by decide),
   highlight_sets_capped_discipline.2.2.2.1 1 ["a"] "b" (by decide) (by decide),
   highlight_sets_capped_discipline.2.2.2.2 ["x", "y", "x"] (by decide)⟩

/-! # Claim C2 — cleanup of temporary files by `TriageOrchestrator.execute` -/

/-- Paths not being cleaned up keep their state. -/
theorem cleanupAttachments_not_mem :
    ∀ (paths : List String) (fs : String → Bool) (p : String), p ∉ paths →
      cleanupAttachments fs paths p = fs p := by
  intro paths
  induction paths with
  | nil => intro fs p _; rfl
  | cons a rest ih =>
    intro fs p hp
    have hpa : p ≠ a := fun h => hp (h ▸ List.mem_cons_self a rest)
    have hpr : p ∉ rest := fun h => hp (List.mem_cons_of_mem a h)
    show cleanupAttachments (fsRemove fs a) rest p = fs p
    rw [ih (fsRemove fs a) p hpr]
    simp [fsRemove, hpa]

/-- Every path in the attachment list is gone after `_cleanup_attachments`. -/
theorem cleanupAttachments_mem :
    ∀ (paths : List String) (fs : String → Bool) (p : String), p ∈ paths →
      cleanupAttachments fs paths p = false := by
  intro paths
  induction paths with
  | nil => intro fs p hp; cases hp
  | cons a rest ih =>
    intro fs p hp
    show cleanupAttachments (fsRemove fs a) rest p = false
    by_cases hpr : p ∈ rest
    · exact ih (fsRemove fs a) p hpr
    · have hpa : p = a := by
        rcases List.mem_cons.mp hp with h | h
        · exact h
        · exact absurd h hpr
      rw [cleanupAttachments_not_mem rest (fsRemove fs a) p hpr]
      simp [fsRemove, hpa]

/-- If an audit path names an existing file, `_existing_path` keeps it. -/
theorem existingPath_of_exists (fs : String → Bool) (a : Option String)
    (p : String) (hfs : fs p = true) (ha : some p = a) :
    existingPath fs a = some p := by
  subst ha
  simp [existingPath, hfs]

/-- The tail of a dispatch phase — report writing and unconditional
attachment cleanup — leaves a path on disk only if it already existed when
the phase began and it is not the telemetry attachment. -/
theorem reportAndCleanup_surviving (fs1 : String → Bool) (run_id : String)
    (tel : Option String) (hasData : Bool) (p : String)
    (h : cleanupAttachments (writeHtmlReport fs1 run_id hasData).1
        (buildAttachmentList tel (writeHtmlReport fs1 run_id hasData).2) p = true) :
    fs1 p = true ∧ tel ≠ some p := by
  by_cases hmem : p ∈ buildAttachmentList tel (writeHtmlReport fs1 run_id hasData).2
  · rw [cleanupAttachments_mem _ _ _ hmem] at h
    cases h
  · rw [cleanupAttachments_not_mem _ _ _ hmem] at h
    have htel : tel ≠ some p := by
      intro htel
      exact hmem (by simp [buildAttachmentList, htel])
    refine ⟨?_, htel⟩
    by_cases hd : hasData
    · have hph : p ≠ htmlReportPath run_id := by
        intro hph
        exact hmem (by simp [buildAttachmentList, writeHtmlReport, hd, hph])
      rw [writeHtmlReport] at h
      simp only [hd, if_true] at h
      simpa [fsAdd, hph] using h
    · rw [writeHtmlReport] at h
      simpa [hd] using h

/-- A whole dispatch phase of `execute` leaves a path on disk only if it
already existed at the start of the phase and is neither of the raw audit
files handed to the merge/compress step. -/
theorem dispatchPhase_surviving (fs : String → Bool) (run_id : String)
    (ia sa : Option String) (hasData : Bool) (webhook : Except String Unit)
    (p : String)
    (h : (dispatchPhase fs run_id ia sa hasData webhook).1 p = true) :
    fs p = true ∧ ia ≠ some p ∧ sa ≠ some p := by
  rcases ia with _ | i <;> rcases sa with _ | s
  · -- no audit at all: the phase only writes and removes the report
    have := reportAndCleanup_surviving fs run_id none hasData p h
    exact ⟨this.1, by simp, by simp⟩
  · -- sandbox audit only: gzip it in place (removing the raw file)
    have hsurv := reportAndCleanup_surviving
      (fsRemove (fsAdd fs (s ++ ".gz")) s) run_id (some (s ++ ".gz")) hasData p h
    have hgz : p ≠ s ++ ".gz" := by
      intro hgz
      exact hsurv.2 (by rw [hgz])
    have hps : p ≠ s := by
      intro hps
      have := hsurv.1
      simp [fsRemove, hps] at this
    have hfs : fs p = true := by
      have := hsurv.1
      simpa [fsRemove, fsAdd, hps, hgz] using this
    exact ⟨hfs, by simp, by simp [hps]; exact fun hx => (hps hx.symm).elim⟩
  · -- install audit only: symmetric
    have hsurv := reportAndCleanup_surviving
      (fsRemove (fsAdd fs (i ++ ".gz")) i) run_id (some (i ++ ".gz")) hasData p h
    have hgz : p ≠ i ++ ".gz" := by
      intro hgz
      exact hsurv.2 (by rw [hgz])
    have hpi : p ≠ i := by
      intro hpi
      have := hsurv.1
      simp [fsRemove, hpi] at this
    have hfs : fs p = true := by
      have := hsurv.1
      simpa [fsRemove, fsAdd, hpi, hgz] using this
    exact ⟨hfs, by simp [hpi]; exact fun hx => (hpi hx.symm).elim, by simp⟩
  · -- both audits: merge, gzip the merged file, unlink both raw files
    have hsurv := reportAndCleanup_surviving
      (fsRemove (fsRemove (fsRemove (fsAdd (fsAdd fs (mergedAuditPath run_id))
          (mergedAuditPath run_id ++ ".gz")) (mergedAuditPath run_id)) i) s)
      run_id (some (mergedAuditPath run_id ++ ".gz")) hasData p h
    have hgz : p ≠ mergedAuditPath run_id ++ ".gz" := by
      intro hgz
      exact hsurv.2 (by rw [hgz])
    have hchain := hsurv.1
    have hps : p ≠ s := by
      intro hps
      simp [fsRemove, hps] at hchain
    have hpi : p ≠ i := by
      intro hpi
      simp [fsRemove, hpi, hps] at hchain
    have hpm : p ≠ mergedAuditPath run_id := by
      intro hpm
      simp [fsRemove, hpm, hps, hpi] at hchain
    have hfs : fs p = true := by
      simpa [fsRemove, fsAdd, hps, hpi, hpm, hgz] using hchain
    refine ⟨hfs, ?_, ?_⟩
    · simp [hpi]; exact fun hx => (hpi hx.symm).elim
    · simp [hps]; exact fun hx => (hps hx.symm).elim

/-- Claim C2: on every exit path of `TriageOrchestrator.execute` — install
failure, install-only success, and the execute branches, with the webhook
POST succeeding or raising — every temporary file produced for the run
(the merged JSONL, its gzip attachment, the HTML report, and the raw audit
files that were merged or compressed) is deleted before orchestration
returns: afterwards no path matching `/tmp/audit-<run_id>*` or
`/tmp/audit-report-<run_id>*` exists, given that beforehand the only such
paths were the audit files reported by the run's installer and (in the
execute branch) its sandbox executor. -/
theorem execute_leaves_no_run_temp_files
    (fs : String → Bool) (run_id : String) (inp : ExecuteFsInput)
    (hinit : ∀ q, fs q = true → matchesRunTemp run_id q = true →
        some q = inp.install_audit ∨
        (inp.install_ok = true ∧ inp.mode ≠ RunMode.install ∧
          some q = inp.sandbox_audit))
    (p : String) (hp : matchesRunTemp run_id p = true) :
    (executeFs fs run_id inp).1 p = false := by
  by_contra hcon
  have htrue : (executeFs fs run_id inp).1 p = true := by
    rcases hval : (executeFs fs run_id inp).1 p with _ | _
    · exact absurd hval hcon
    · rfl
  rw [executeFs] at htrue
  by_cases hok : inp.install_ok
  · simp only [hok, Bool.not_true, if_false] at htrue
    by_cases hmode : inp.mode = RunMode.install
    · simp only [hmode, if_true] at htrue
      rcases dispatchPhase_surviving _ _ _ _ _ _ _ htrue with ⟨hfs, hia, -⟩
      rcases hinit p hfs hp with hq | ⟨-, hm, -⟩
      · exact hia (existingPath_of_exists fs inp.install_audit p hfs hq)
      · exact hm hmode
    · simp only [hmode, if_false] at htrue
      rcases dispatchPhase_surviving _ _ _ _ _ _ _ htrue with ⟨hfs, hia, hsa⟩
      rcases hinit p hfs hp with hq | ⟨-, -, hq⟩
      · exact hia (existingPath_of_exists fs inp.install_audit p hfs hq)
      · exact hsa (existingPath_of_exists fs inp.sandbox_audit p hfs hq)
  · have hok' : inp.install_ok = false := by
      rcases hv : inp.install_ok with _ | _
      · rfl
      · exact absurd hv hok
    simp only [hok', Bool.not_false, if_true] at htrue
    rcases dispatchPhase_surviving _ _ _ _ _ _ _ htrue with ⟨hfs, hia, -⟩
    rcases hinit p hfs hp with hq | ⟨hq, -, -⟩
    · exact hia (existingPath_of_exists fs inp.install_audit p hfs hq)
    · rw [hok'] at hq
      cases hq

/-- Witness for C2: a concrete execute-mode run whose installer reported
`/tmp/pip-audit-x.jsonl` and whose executor reported `/tmp/audit-r1.jsonl`,
both existing; afterwards the executor's raw audit file is gone. -/
theorem execute_leaves_no_run_temp_files_witness :
    (executeFs
        (fun q => q == "/tmp/pip-audit-x.jsonl" || q == "/tmp/audit-r1.jsonl")
        "r1"
        { mode := RunMode.execute, install_ok := true,
          install_audit := some "/tmp/pip-audit-x.jsonl",
          sandbox_audit := some "/tmp/audit-r1.jsonl",
          hasDataInstallOnly := true, hasDataRun := true,
          webhook := Except.ok () }).1 "/tmp/audit-r1.jsonl" = false := by
  refine execute_leaves_no_run_temp_files _ "r1" _ ?_ "/tmp/audit-r1.jsonl" (by decide)
  intro q hq _
  have hq' : q = "/tmp/pip-audit-x.jsonl" ∨ q = "/tmp/audit-r1.jsonl" := by
    rcases Bool.or_eq_true_iff.mp hq with h | h
    · exact Or.inl (by simpa using h)
    · exact Or.inr (by simpa using h)
  rcases hq' with h | h
  · exact Or.inl (by rw [h])
  · exact Or.inr ⟨rfl, by decide, by rw [h]⟩

/-! # Claim C5 — the fixed-window rate limiter and width-`W` windows -/

/-- Unfolding one `allow` call of a trace. -/
theorem allowTrace_cons (L : Nat) (W : ℚ) (cur : Option WindowState) (t : ℚ)
    (rest : List ℚ) :
    allowTrace L W cur (t :: rest) =
      (t, (allowStep L W cur t).1, (allowStep L W cur t).2.window_start) ::
        allowTrace L W (some (allowStep L W cur t).2) rest := rfl

/-- An `allow` call at or past the window boundary resets the window. -/
theorem allowStep_reset {L : Nat} {W : ℚ} {s t : ℚ} {k : Nat}
    (h : W ≤ t - s) :
    allowStep L W (some ⟨s, k⟩) t = (true, ⟨t, 1⟩) := by
  simp [allowStep, h]

/-- An `allow` call inside the window with the limit reached is rejected. -/
theorem allowStep_reject {L : Nat} {W : ℚ} {s t : ℚ} {k : Nat}
    (h1 : ¬ W ≤ t - s) (h2 : L ≤ k) :
    allowStep L W (some ⟨s, k⟩) t = (false, ⟨s, k⟩) := by
  simp [allowStep, h1, h2]

/-- An `allow` call inside the window below the limit increments the count. -/
theorem allowStep_count {L : Nat} {W : ℚ} {s t : ℚ} {k : Nat}
    (h1 : ¬ W ≤ t - s) (h2 : ¬ L ≤ k) :
    allowStep L W (some ⟨s, k⟩) t = (true, ⟨s, k + 1⟩) := by
  simp [allowStep, h1, h2]

/-- The timestamps of a trace are the call timestamps. -/
theorem allowTrace_map_fst (L : Nat) (W : ℚ) :
    ∀ (l : List ℚ) (cur : Option WindowState),
      (allowTrace L W cur l).map (fun x => x.1) = l := by
  intro l
  induction l with
  | nil => intro cur; rfl
  | cons t rest ih =>
    intro cur
    rw [allowTrace_cons, List.map_cons, ih]

/-- Counting over an extended trace. -/
theorem allowedInWindow_cons (x : ℚ × Bool × ℚ) (tr : List (ℚ × Bool × ℚ))
    (a W : ℚ) :
    allowedInWindow (x :: tr) a W =
      (if x.2.1 && decide (a ≤ x.1) && decide (x.1 < a + W) then 1 else 0) +
        allowedInWindow tr a W := by
  rw [allowedInWindow, allowedInWindow, List.filter_cons]
  split
  · simp [Nat.add_comm]
  · simp

/-- A window to the left of every call in a trace counts nothing. -/
theorem allowedInWindow_zero (tr : List (ℚ × Bool × ℚ)) (a W : ℚ)
    (h : ∀ x ∈ tr, ¬ (x.1 < a + W)) : allowedInWindow tr a W = 0 := by
  rw [allowedInWindow, List.length_eq_zero]
  rw [List.filter_eq_nil_iff]
  intro x hx
  simp [h x hx]

/-- Unfolding the window starts of an extended trace. -/
theorem traceStarts_cons (x : ℚ × Bool × ℚ) (tr : List (ℚ × Bool × ℚ)) :
    traceStarts (x :: tr) = x.2.2 :: traceStarts tr := rfl

/-- Window starts only move forward: every start reached from
`⟨s, k⟩` over nondecreasing timestamps no earlier than `s` is either `s`
itself or at least `s + W`. -/
theorem traceStarts_lb (L : Nat) (W : ℚ) (hW : 0 < W) :
    ∀ (l : List ℚ) (s : ℚ) (k : Nat), l.Pairwise (· ≤ ·) → (∀ t ∈ l, s ≤ t) →
      ∀ s' ∈ traceStarts (allowTrace L W (some ⟨s, k⟩) l),
        s' = s ∨ s + W ≤ s' := by
  intro l
  induction l with
  | nil => intro s k _ _ s' hs'; cases hs'
  | cons t rest ih =>
    intro s k hpair hall s' hs'
    have hst : s ≤ t := hall t (List.mem_cons_self t rest)
    have hallrest : ∀ u ∈ rest, t ≤ u := fun u hu =>
      List.rel_of_pairwise_cons hpair hu
    have hpair' := hpair.of_cons
    by_cases hreset : W ≤ t - s
    · rw [allowTrace_cons, allowStep_reset hreset, traceStarts_cons] at hs'
      rcases List.mem_cons.mp hs' with h1 | h1
      · right; simp at h1; rw [h1]; linarith
      · rcases ih t 1 hpair' hallrest s' h1 with h | h
        · right; rw [h]; linarith
        · right; linarith
    · by_cases hfull : L ≤ k
      · rw [allowTrace_cons, allowStep_reject hreset hfull, traceStarts_cons] at hs'
        rcases List.mem_cons.mp hs' with h1 | h1
        · left; simpa using h1
        · exact ih s k hpair' (fun u hu => le_trans hst (hallrest u hu)) s' h1
      · rw [allowTrace_cons, allowStep_count hreset hfull, traceStarts_cons] at hs'
        rcases List.mem_cons.mp hs' with h1 | h1
        · left; simpa using h1
        · exact ih s (k + 1) hpair' (fun u hu => le_trans hst (hallrest u hu)) s' h1

/-- Core bound: from state `⟨s, k⟩`, over nondecreasing timestamps no
earlier than `s`, the window `[s, s + W)` admits at most `L - k` more
calls, and every other window start's window admits at most `L`. -/
theorem allowTrace_window_bound (L : Nat) (W : ℚ) (hL : 1 ≤ L) (hW : 0 < W) :
    ∀ (l : List ℚ) (s : ℚ) (k : Nat), l.Pairwise (· ≤ ·) → (∀ t ∈ l, s ≤ t) →
      1 ≤ k → k ≤ L →
      allowedInWindow (allowTrace L W (some ⟨s, k⟩) l) s W ≤ L - k ∧
      (∀ s' ∈ traceStarts (allowTrace L W (some ⟨s, k⟩) l), s' ≠ s →
        allowedInWindow (allowTrace L W (some ⟨s, k⟩) l) s' W ≤ L) := by
  intro l
  induction l with
  | nil =>
    intro s k _ _ _ _
    exact ⟨Nat.zero_le _, fun s' hs' _ => by cases hs'⟩
  | cons t rest ih =>
    intro s k hpair hall hk1 hkL
    have hst : s ≤ t := hall t (List.mem_cons_self t rest)
    have hallrest : ∀ u ∈ rest, t ≤ u := fun u hu =>
      List.rel_of_pairwise_cons hpair hu
    have hpair' := hpair.of_cons
    by_cases hreset : W ≤ t - s
    · rw [allowTrace_cons, allowStep_reset hreset]
      have hrec := ih t 1 hpair' hallrest (le_refl 1) hL
      have hzero : allowedInWindow (allowTrace L W (some ⟨t, 1⟩) rest) s W = 0 := by
        apply allowedInWindow_zero
        intro x hx
        have hx1 : x.1 ∈ rest := by
          have := List.mem_map_of_mem (fun y : ℚ × Bool × ℚ => y.1) hx
          rwa [allowTrace_map_fst] at this
        have : t ≤ x.1 := hallrest x.1 hx1
        intro hlt
        have : s + W ≤ t := by linarith
        linarith
      constructor
      · rw [allowedInWindow_cons]
        have hnot : ¬ ((t : ℚ) < s + W) := by linarith
        simp [hnot, hzero]
      · intro s' hs' _
        rw [traceStarts_cons] at hs'
        rw [allowedInWindow_cons]
        simp only at hs' ⊢
        rcases List.mem_cons.mp hs' with h1 | h1
        · rw [h1]
          have hin : (decide ((t : ℚ) ≤ t) && decide ((t : ℚ) < t + W)) = true := by
            simp
            linarith
          have hb := hrec.1
          simp only [Bool.true_and]
          rw [hin, if_pos rfl]
          omega
        · by_cases hst' : s' = t
          · rw [hst']
            have hin : (decide ((t : ℚ) ≤ t) && decide ((t : ℚ) < t + W)) = true := by
              simp
              linarith
            have hb := hrec.1
            rw [hst'] at h1
            simp only [Bool.true_and]
            rw [hin, if_pos rfl]
            omega
          · rcases traceStarts_lb L W hW rest t 1 hpair' hallrest s' h1 with h | h
            · exact absurd h hst'
            · have hout : ¬ ((s' : ℚ) ≤ t) := by linarith
              simp only [Bool.true_and]
              simp [hout]
              exact hrec.2 s' h1 hst'
    · by_cases hfull : L ≤ k
      · rw [allowTrace_cons, allowStep_reject hreset hfull]
        have hrec := ih s k hpair' (fun u hu => le_trans hst (hallrest u hu)) hk1 hkL
        constructor
        · rw [allowedInWindow_cons]
          simpa using hrec.1
        · intro s' hs' hss
          rw [traceStarts_cons] at hs'
          rw [allowedInWindow_cons]
          simp only at hs' ⊢
          rcases List.mem_cons.mp hs' with h1 | h1
          · exact absurd h1 hss
          · simpa using hrec.2 s' h1 hss
      · rw [allowTrace_cons, allowStep_count hreset hfull]
        have hrec := ih s (k + 1) hpair'
          (fun u hu => le_trans hst (hallrest u hu)) (by omega) (by omega)
        constructor
        · rw [allowedInWindow_cons]
          have hin : (decide ((s : ℚ) ≤ t) && decide ((t : ℚ) < s + W)) = true := by
            simp
            constructor
            · exact hst
            · linarith
          have hb := hrec.1
          simp only [Bool.true_and]
          rw [hin, if_pos rfl]
          omega
        · intro s' hs' hss
          rw [traceStarts_cons] at hs'
          rw [allowedInWindow_cons]
          simp only at hs' ⊢
          rcases List.mem_cons.mp hs' with h1 | h1
          · exact absurd h1 hss
          · rcases traceStarts_lb L W hW rest s (k + 1) hpair'
                (fun u hu => le_trans hst (hallrest u hu)) s' h1 with h | h
            · exact absurd h hss
            · have hout : ¬ ((s' : ℚ) ≤ t) := by linarith
              simp [hout]
              exact hrec.2 s' h1 hss

/-- Counterexample for claim C5: the claim bounds the allowed calls in
*any* time window of width `W`; with limit 2 and window 60, the calls at
0, 59, 60 and 61 are all allowed (the limiter's windows being `[0, 60)`
and `[60, 120)`), and the width-60 window starting at 59 contains the
three allowed calls 59, 60, 61. -/
theorem rate_limiter_sliding_window_cex :
    ¬ (allowedInWindow (allowTrace 2 60 none [0, 59, 60, 61]) 59 60 ≤ 2) := by
  have htr : allowTrace 2 60 none [0, 59, 60, 61] =
      [(0, true, 0), (59, true, 0), (60, true, 60), (61, true, 60)] := by
    norm_num [allowTrace, allowStep]
  rw [htr]
  norm_num [allowedInWindow, List.filter]

/-- Claim C5 as amended: for limit `L ≥ 1`, window width `W > 0` and a
nondecreasing timestamp sequence (as `time.monotonic` guarantees), at most
`L` allowed calls fall within any window `[s, s + W)` that begins at one of
the limiter's own window starts.  (An arbitrarily placed width-`W`
window can span two limiter windows and contain up to `2·L` allowed
calls.) -/
theorem rate_limiter_per_window_bound (L : Nat) (W : ℚ) (l : List ℚ)
    (hL : 1 ≤ L) (hW : 0 < W) (hmono : l.Pairwise (· ≤ ·)) :
    ∀ s' ∈ traceStarts (allowTrace L W none l),
      allowedInWindow (allowTrace L W none l) s' W ≤ L := by
  cases l with
  | nil => intro s' hs'; cases hs'
  | cons t rest =>
    intro s' hs'
    have hpair' := hmono.of_cons
    have hallrest : ∀ u ∈ rest, t ≤ u := fun u hu =>
      List.rel_of_pairwise_cons hmono hu
    have hstep : allowStep L W none t = (true, ⟨t, 1⟩) := rfl
    rw [allowTrace_cons, hstep] at hs' ⊢
    rw [traceStarts_cons] at hs'
    rw [allowedInWindow_cons]
    have hrec := allowTrace_window_bound L W hL hW rest t 1 hpair' hallrest
      (le_refl 1) hL
    simp only at hs' ⊢
    rcases List.mem_cons.mp hs' with h1 | h1
    · rw [h1]
      have hin : (decide ((t : ℚ) ≤ t) && decide ((t : ℚ) < t + W)) = true := by
        simp
        linarith
      have hb := hrec.1
      simp only [Bool.true_and]
      rw [hin, if_pos rfl]
      omega
    · by_cases hst' : s' = t
      · rw [hst']
        have hin : (decide ((t : ℚ) ≤ t) && decide ((t : ℚ) < t + W)) = true := by
          simp
          linarith
        have hb := hrec.1
        rw [hst'] at h1
        simp only [Bool.true_and]
        rw [hin, if_pos rfl]
        omega
      · rcases traceStarts_lb L W hW rest t 1 hpair' hallrest s' h1 with h | h
        · exact absurd h hst'
        · have hout : ¬ ((s' : ℚ) ≤ t) := by linarith
          simp [hout]
          exact hrec.2 s' h1 hst'

/-- Witness for the amended C5: limit 1, window 60, calls at 0 and 60 —
the window starting at 0 admits exactly its one allowed call. -/
theorem rate_limiter_per_window_bound_witness :
    allowedInWindow (allowTrace 1 60 none [0, 60]) 0 60 ≤ 1 := by
  have hmem : (0 : ℚ) ∈ traceStarts (allowTrace 1 60 none [0, 60]) := by
    have htr : allowTrace 1 60 none [0, 60] = [(0, true, 0), (60, true, 60)] := by
      norm_num [allowTrace, allowStep]
    rw [htr]
    simp [traceStarts]
  exact rate_limiter_per_window_bound 1 60 [0, 60] (le_refl 1) (by norm_num)
    (by norm_num) 0 hmem

/-! # Claim C6 — stage prefixing versus `_parse_audit_record` -/

/-- Stripping both ends is right-stripping after left-stripping. -/
theorem pyStripChars_eq (cs : List Char) :
    pyStripChars cs = rstripChars (cs.dropWhile Char.isWhitespace) := rfl

/-- Right-stripping keeps a non-whitespace head character. -/
theorem rstripChars_cons_of_not_ws (c : Char) (hc : c.isWhitespace = false)
    (xs : List Char) : rstripChars (c :: xs) = c :: rstripChars xs := by
  unfold rstripChars
  rw [List.reverse_cons, List.dropWhile_append]
  rcases hdw : xs.reverse.dropWhile Char.isWhitespace with _ | ⟨d, ds⟩
  · simp [hc]
  · simp [hc]

/-- Right-stripping does not touch a prefix of non-whitespace characters. -/
theorem rstripChars_append_not_ws :
    ∀ (pre rest : List Char), (∀ c ∈ pre, c.isWhitespace = false) →
      rstripChars (pre ++ rest) = pre ++ rstripChars rest := by
  intro pre
  induction pre with
  | nil => intro rest _; simp
  | cons c cs ih =>
    intro rest h
    rw [List.cons_append,
      rstripChars_cons_of_not_ws c (h c (List.mem_cons_self c cs)),
      ih rest (fun d hd => h d (List.mem_cons_of_mem c hd)), List.cons_append]

/-- Splitting `str.partition` style around the first colon. -/
theorem partitionColonChars_split :
    ∀ (pre : List Char), (∀ c ∈ pre, c ≠ ':') → ∀ (r : List Char),
      partitionColonChars (pre ++ ':' :: r) = some (pre, r) := by
  intro pre
  induction pre with
  | nil => intro _ r; simp [partitionColonChars]
  | cons c cs ih =>
    intro h r
    have hc : c ≠ ':' := h c (List.mem_cons_self c cs)
    rw [List.cons_append, partitionColonChars,
      ih (fun d hd => h d (List.mem_cons_of_mem c hd)) r]
    simp [hc]

/-- Counterexample for claim C6: the claim quantifies over every text line
`L`, but for a line with leading whitespace before its JSON — here
a space followed by the empty JSON object — the bare line parses (strip
removes the blank) while the
prefixed form does not: after `"install:"` the partition tail starts with
a space, not `{`, so the stage label is not stripped and parsing yields
nothing. -/
theorem parse_audit_record_prefix_cex :
    parseAuditRecord ("install" ++ ":" ++ " \x7b\x7d") ≠
      parseAuditRecord " \x7b\x7d" := by
  intro h
  have h1 : parseAuditRecord ("install" ++ ":" ++ " \x7b\x7d") = none := rfl
  have h2 : parseAuditRecord " \x7b\x7d" = some [] := rfl
  rw [h1, h2] at h
  cases h

/-- Claim C6 as amended: for each stage `s ∈ {install, sandbox}` and every
line `L` that itself starts with `{` — the form in which the audit
producers write lines and in which the merge step reads them —
`_parse_audit_record(s + ":" + L)` equals `_parse_audit_record(L)`.  (For
lines with leading whitespace before the JSON, or lines already carrying a
stage label, prepending the prefix changes the result — see the
counterexample.) -/
theorem parse_audit_record_prefix_round_trip (s L : String)
    (hs : s = "install" ∨ s = "sandbox") (hL : startsWithBrace L = true) :
    parseAuditRecord (s ++ ":" ++ L) = parseAuditRecord L := by
  have hchars : ∀ c ∈ s.data,
      (c = ':' → False) ∧ c.isWhitespace = false ∧ (c = Char.ofNat 123 → False) := by
    rcases hs with hs | hs <;> (rw [hs]; decide)
  have hname : (s = "install" || s = "sandbox") = true := by
    rcases hs with hs | hs <;> simp [hs]
  obtain ⟨d, ds, hds⟩ : ∃ d ds, s.data = d :: ds := by
    rcases hs with hs | hs <;> (rw [hs]; exact ⟨_, _, rfl⟩)
  obtain ⟨t, ht⟩ : ∃ t, L.data = Char.ofNat 123 :: t := by
    rw [startsWithBrace] at hL
    rcases hdata : L.data with _ | ⟨c, t⟩
    · rw [hdata] at hL; cases hL
    · rw [hdata] at hL
      simp only [decide_eq_true_iff] at hL
      exact ⟨t, by rw [hL]⟩

  have hdata_all : (s ++ ":" ++ L).data = s.data ++ ':' :: Char.ofNat 123 :: t := by
    show s.data ++ [':'] ++ L.data = _
    rw [ht, List.append_assoc, List.singleton_append]
  have hprefix_not_ws : ∀ c ∈ s.data ++ [':', Char.ofNat 123],
      c.isWhitespace = false := by
    intro c hc
    rcases List.mem_append.mp hc with h | h
    · exact (hchars c h).2.1
    · rcases List.mem_cons.mp h with h | h
      · rw [h]; decide
      · rcases List.mem_cons.mp h with h | h
        · rw [h]; decide
        · cases h
  have hstrip_l : pyStripChars ((s ++ ":" ++ L).data) =
      s.data ++ ':' :: Char.ofNat 123 :: rstripChars t := by
    rw [hdata_all, pyStripChars_eq]
    have hdw : (s.data ++ ':' :: Char.ofNat 123 :: t).dropWhile Char.isWhitespace =
        s.data ++ ':' :: Char.ofNat 123 :: t := by
      rw [hds, List.cons_append, List.dropWhile_cons]
      have : d.isWhitespace = false := (hchars d (by rw [hds]; exact List.mem_cons_self d ds)).2.1
      simp [this]
    rw [hdw]
    have hsplit : s.data ++ ':' :: Char.ofNat 123 :: t =
        (s.data ++ [':', Char.ofNat 123]) ++ t := by
      simp
    rw [hsplit, rstripChars_append_not_ws _ _ hprefix_not_ws]
    simp
  have hstrip_r : pyStripChars L.data = Char.ofNat 123 :: rstripChars t := by
    rw [ht, pyStripChars_eq]
    have hdw : (Char.ofNat 123 :: t).dropWhile Char.isWhitespace =
        Char.ofNat 123 :: t := by
      rw [List.dropWhile_cons]
      simp [show (Char.ofNat 123).isWhitespace = false from by decide]
    rw [hdw]
    have : Char.ofNat 123 :: t = [Char.ofNat 123] ++ t := rfl
    rw [this, rstripChars_append_not_ws _ _
      (by intro c hc; rcases List.mem_singleton.mp hc with h; rw [h]; decide)]
    rfl
  have hline_l : pyStrip (s ++ ":" ++ L) =
      String.mk (s.data ++ ':' :: Char.ofNat 123 :: rstripChars t) := by
    rw [pyStrip, hstrip_l]
  have hline_r : pyStrip L = String.mk (Char.ofNat 123 :: rstripChars t) := by
    rw [pyStrip, hstrip_r]
  have hbrace_tail : startsWithBrace (String.mk (Char.ofNat 123 :: rstripChars t)) = true := by
    simp [startsWithBrace]
  have hbrace_l : startsWithBrace
      (String.mk (s.data ++ ':' :: Char.ofNat 123 :: rstripChars t)) = false := by
    rw [startsWithBrace, hds]
    simp only [List.cons_append]
    have : (d = Char.ofNat 123) → False :=
      (hchars d (by rw [hds]; exact List.mem_cons_self d ds)).2.2
    simpa using this
  have hpart : pyPartitionColon
      (String.mk (s.data ++ ':' :: Char.ofNat 123 :: rstripChars t)) =
      (s, true, String.mk (Char.ofNat 123 :: rstripChars t)) := by
    rw [pyPartitionColon]
    have : partitionColonChars (s.data ++ ':' :: Char.ofNat 123 :: rstripChars t) =
        some (s.data, Char.ofNat 123 :: rstripChars t) :=
      partitionColonChars_split s.data
        (fun c hc h => (hchars c hc).1 h) _
    rw [this]
  have hne_l : (String.mk (s.data ++ ':' :: Char.ofNat 123 :: rstripChars t)).data.isEmpty
      = false := by
    rw [hds]
    simp
  have hne_r : (String.mk (Char.ofNat 123 :: rstripChars t)).data.isEmpty = false := by
    simp
  rw [parseAuditRecord, parseAuditRecord]
  simp only [hline_l, hline_r, hne_l, hne_r, Bool.false_eq_true, if_false,
    hbrace_l, hbrace_tail, if_true, hpart, hname, Bool.true_and, Bool.and_true]

/-- Witness for the amended C6: prefixing the minimal JSON object line with
the install stage does not change its parse. -/
theorem parse_audit_record_prefix_round_trip_witness :
    parseAuditRecord ("install" ++ ":" ++ "\x7b\x7d") = parseAuditRecord "\x7b\x7d" :=
  parse_audit_record_prefix_round_trip "install" "\x7b\x7d" (Or.inl rfl) (by decide)

end Snakehook
